import Mathlib

/-!
Shallow embedding of `src/note2markdown.py` (classes `XMLParser` and
`MarkdownExporter`).  Machine strings are Lean `String`s; literal brace
characters inside string literals are written with the escapes \x7b and \x7d.
Line numbers in doc comments refer to `src/note2markdown.py`.
-/

/-- Python whitespace test (the regex class backslash-s and `str.strip`),
restricted to the ASCII whitespace characters space, tab, newline, carriage
return, vertical tab and form feed.  (Non-ASCII Unicode whitespace is not
modelled; no claim in this development depends on it.) -/
def pySpace (c : Char) : Bool :=
  c = ' ' || c = '\t' || c = '\n' || c = '\r' || c = '\x0b' || c = '\x0c'

/-- Python `str.strip()` on a character list: drop whitespace from both ends. -/
def pyStripL (l : List Char) : List Char :=
  ((l.dropWhile pySpace).reverse.dropWhile pySpace).reverse

/-- Python `str.strip()`. -/
def pyStrip (s : String) : String := String.mk (pyStripL s.data)

/-- Python substring test `pat in s`. -/
def containsSub (s pat : String) : Bool := decide (pat.data <:+: s.data)

/-! ## The XML side: `xml.etree.ElementTree` elements and `XMLParser` -/

/-- A parsed XML element as `xml.etree.ElementTree` exposes it: the qualified
tag (`\x7buri\x7dlocal` for a namespaced element), the optional text, and the
ordered list of child elements.  Attributes are not consulted by any embedded
code path and are omitted. -/
inductive XElem where
  | mk : String → Option String → List XElem → XElem

def XElem.tag : XElem → String
  | .mk t _ _ => t

def XElem.text : XElem → Option String
  | .mk _ x _ => x

def XElem.children : XElem → List XElem
  | .mk _ _ cs => cs

mutual

/-- All proper descendants of an element in document (preorder) order — the
order in which `ElementTree` path search enumerates candidate elements. -/
def descendants : XElem → List XElem
  | .mk _ _ cs => descendantsList cs

def descendantsList : List XElem → List XElem
  | [] => []
  | c :: cs => c :: (descendants c ++ descendantsList cs)

end

/-- `element.find(tag)` for a plain tag name: the first immediate child whose
tag equals the given string (ElementTree path search with a bare name only
inspects direct children). -/
def findChildByTag (e : XElem) (t : String) : Option XElem :=
  List.find? (fun c => c.tag = t) e.children

/-- `element.find(".//TAG")`: the first proper descendant, in document order,
whose tag equals `TAG`.  The two tags built below contain several brace
characters, so ElementPath does not recognise them as the `\x7b*\x7d`
namespace wildcard and compares them literally against element tags. -/
def findDescByTag (e : XElem) (t : String) : Option XElem :=
  List.find? (fun c => c.tag = t) (descendants e)

/-- The path tag built at line 79: `".//\x7b\x7b\x7b*\x7d\x7d\x7d:" + variant`.
The source writes brace-doubling as if inside an f-string, but the string has
no `f` prefix, so the braces are literal. -/
def wpLiteralTag (v : String) : String := "\x7b\x7b\x7b*\x7d\x7d\x7d:" ++ v

/-- The path tag built at line 85: `".//\x7b\x7b\x7b*\x7d\x7d\x7d" + variant`. -/
def nsLiteralTag (v : String) : String := "\x7b\x7b\x7b*\x7d\x7d\x7d" ++ v

/-- `XMLParser._find_element_by_tag_variants` (lines 70-90): for each variant
in order, try the exact child match, then the two literal brace paths. -/
def findElementByTagVariants (e : XElem) : List String → Option XElem
  | [] => none
  | v :: rest =>
    match findChildByTag e v with
    | some m => some m
    | none =>
      match findDescByTag e (wpLiteralTag v) with
      | some m => some m
      | none =>
        match findDescByTag e (nsLiteralTag v) with
        | some m => some m
        | none => findElementByTagVariants e rest

/-- `XMLParser._find_text_by_tag_variants` (lines 92-97): the found element's
stripped text when the element exists and its text is truthy, else `""`. -/
def findTextByTagVariants (e : XElem) (variants : List String) : String :=
  match findElementByTagVariants e variants with
  | some el =>
    match el.text with
    | some t => if t = "" then "" else pyStrip t
    | none => ""
  | none => ""

/-- `XMLParser._cleanup_tag_name` (lines 64-68): `tag.split('\x7d')[-1]` when a
closing brace occurs in the tag, else the tag itself.  The last segment of the
split is the suffix after the last closing brace, computed here directly. -/
def cleanupTagName (t : String) : String :=
  if containsSub t "\x7d" then
    String.mk ((t.data.reverse.takeWhile (fun c => c ≠ '\x7d')).reverse)
  else t

/-- `elem.text.strip() if elem.text else ''` (line 138). -/
def elemTextOrEmpty (e : XElem) : String :=
  match e.text with
  | some t => if t = "" then "" else pyStrip t
  | none => ""

/-- Characters with a role in `ElementPath`'s path grammar: the operator
characters of `xpath_tokenizer` (`/ [ ] ( ) @ = !` and whitespace), the
namespace separator `:`, brace-group delimiters, the wildcard `*`, the step
characters `.`, and quote characters.  A nonempty string avoiding all of them
tokenizes as one plain tag token. -/
def xpathPlainChar (c : Char) : Bool :=
  !(c = '/' || c = '[' || c = ']' || c = '(' || c = ')' || c = '@' || c = '=' ||
    c = '!' || c = ':' || c = '*' || c = '\x7b' || c = '\x7d' || c = '.' ||
    c = '"' || pySpace c)

/-- A path string that `ElementPath` parses as a single plain tag token (no
operators, no namespace prefix or brace group, no wildcard): on such a path
`element.find` returns the first immediate child carrying exactly that tag. -/
def xpathPlainName (v : String) : Bool :=
  !v.data.isEmpty && v.data.all xpathPlainChar

/-- The character prefix `".//\x7b\x7b\x7b*\x7d\x7d\x7d"` shared by the two
fallback paths the resolver builds at lines 79 and 85. -/
def nsPathHead : List Char :=
  ['.', '/', '/', '\x7b', '\x7b', '\x7b', '*', '\x7d', '\x7d', '\x7d']

/-- A model of `xml.etree.ElementTree.Element.find(path)` — always called with
the default `namespaces=None` in this program — on the fragment of paths the
resolver can build:
* the resolver's two literal fallback paths, recognised by the head
  `".//\x7b\x7b\x7b*\x7d\x7d\x7d"`, select the first proper descendant whose
  tag equals the literal token after `".//"` (the extra braces defeat the
  `\x7b*\x7d` wildcard syntax, so the comparison is literal);
* a plain tag token selects the first immediate child with exactly that tag;
* a remaining path holding a colon has it in a prefixed tag token, for which
  `ElementPath.xpath_tokenizer` raises
  `SyntaxError: prefix not found in prefix map` (there is no prefix map),
  modelled as `.error ()`;
* other path shapes never occur in any run modelled in this development and
  are mapped to no match. -/
def etFind (e : XElem) (v : String) : Except Unit (Option XElem) :=
  if nsPathHead <+: v.data then
    .ok (findDescByTag e (String.mk (v.data.drop 3)))
  else if xpathPlainName v then .ok (findChildByTag e v)
  else if containsSub v ":" then .error ()
  else .ok none

/-- `XMLParser._find_element_by_tag_variants` (lines 70-90) with the
`element.find` library call abstracted as `xfind`, whose exceptions
(`SyntaxError` from path parsing) propagate and abort the loop, as in Python.
For each variant in order: the exact path `variant`, then the literal path
`".//\x7b\x7b\x7b*\x7d\x7d\x7d:" + variant`, then
`".//\x7b\x7b\x7b*\x7d\x7d\x7d" + variant`. -/
def findElementByTagVariantsE
    (xfind : XElem → String → Except Unit (Option XElem)) (e : XElem) :
    List String → Except Unit (Option XElem)
  | [] => .ok none
  | v :: rest =>
    match xfind e v with
    | .error err => .error err
    | .ok (some m) => .ok (some m)
    | .ok none =>
      match xfind e (".//" ++ wpLiteralTag v) with
      | .error err => .error err
      | .ok (some m) => .ok (some m)
      | .ok none =>
        match xfind e (".//" ++ nsLiteralTag v) with
        | .error err => .error err
        | .ok (some m) => .ok (some m)
        | .ok none => findElementByTagVariantsE xfind e rest

/-- `XMLParser._find_text_by_tag_variants` (lines 92-97) over the abstracted
`find`: a raised `SyntaxError` propagates to the caller. -/
def findTextByTagVariantsE
    (xfind : XElem → String → Except Unit (Option XElem)) (e : XElem)
    (variants : List String) : Except Unit String :=
  match findElementByTagVariantsE xfind e variants with
  | .error err => .error err
  | .ok (some el) =>
    .ok (match el.text with
         | some t => if t = "" then "" else pyStrip t
         | none => "")
  | .ok none => .ok ""

/-! ## The record dict built by `extract_article_content` -/

/-- A value stored in the Python record dict: every key holds a string except
`other_metadata`, which holds a nested string-to-string dict (unless a
WordPress child named `other_metadata` overwrites it with a string). -/
inductive Val where
  | s : String → Val
  | m : List (String × String) → Val
deriving DecidableEq

/-- A Python dict as an insertion-ordered association list (Python 3.7+
semantics): lookup by key. -/
def alistGet {β : Type} (r : List (String × β)) (k : String) : Option β :=
  Option.map (fun kv => kv.2) (List.find? (fun kv => kv.1 = k) r)

/-- Dict assignment: an existing key keeps its position and gets the new
value; a new key is appended at the end. -/
def alistSet {β : Type} (r : List (String × β)) (k : String) (v : β) :
    List (String × β) :=
  if r.any (fun kv => kv.1 = k) then
    r.map (fun kv => if kv.1 = k then (k, v) else kv)
  else r ++ [(k, v)]

/-- The record dict: an insertion-ordered association list, as Python 3.7+
dicts behave. -/
abbrev RecDict := List (String × Val)

/-- Dict lookup on the record. -/
def dictLookup (r : RecDict) (k : String) : Option Val := alistGet r k

/-- Dict assignment on the record. -/
def dictSet (r : RecDict) (k : String) (v : Val) : RecDict := alistSet r k v

/-- Lookup on the nested string-to-string dict. -/
def pairsLookup (l : List (String × String)) (k : String) : Option String :=
  alistGet l k

/-- Assignment on the nested string-to-string dict. -/
def pairsUpsert (om : List (String × String)) (k v : String) :
    List (String × String) :=
  alistSet om k v

/-- The `content` dict literal of lines 108-131, in source order. -/
def initialContent : RecDict :=
  [("title", Val.s ""), ("link", Val.s ""), ("description", Val.s ""),
   ("content", Val.s ""), ("pubDate", Val.s ""), ("post_id", Val.s ""),
   ("guid", Val.s ""), ("post_date", Val.s ""), ("post_date_gmt", Val.s ""),
   ("post_modified", Val.s ""), ("post_modified_gmt", Val.s ""),
   ("comment_status", Val.s ""), ("ping_status", Val.s ""),
   ("post_name", Val.s ""), ("status", Val.s ""), ("post_parent", Val.s ""),
   ("menu_order", Val.s ""), ("post_type", Val.s ""),
   ("post_password", Val.s ""), ("is_sticky", Val.s ""),
   ("creator", Val.s ""), ("other_metadata", Val.m [])]

/-- The 21 canonical (string-valued) record fields named by the spec. -/
def canonicalFields : List String :=
  ["title", "link", "description", "content", "pubDate", "post_id", "guid",
   "post_date", "post_date_gmt", "post_modified", "post_modified_gmt",
   "comment_status", "ping_status", "post_name", "status", "post_parent",
   "menu_order", "post_type", "post_password", "is_sticky", "creator"]

/-- The membership test of line 137: `'wordpress.org' in elem.tag or
'\x7b\x7d' in elem.tag`. -/
def isWpTag (t : String) : Bool :=
  containsSub t "wordpress.org" || containsSub t "\x7b\x7d"

/-- The `wp_elements` dict of lines 134-138: over the immediate children, keep
those whose tag passes `isWpTag`, keyed by the namespace-stripped tag name
with the stripped text as value (dict semantics: last write wins). -/
def wpElements (e : XElem) : List (String × String) :=
  List.foldl
    (fun acc c =>
      if isWpTag c.tag then pairsUpsert acc (cleanupTagName c.tag) (elemTextOrEmpty c)
      else acc)
    [] e.children

/-- The Dublin Core creator tag of line 150. -/
def dcCreatorTag : String := "\x7bhttp://purl.org/dc/elements/1.1/\x7dcreator"

/-- The content-module encoded tag of line 155. -/
def contentEncodedTag : String :=
  "\x7bhttp://purl.org/rss/1.0/modules/content/\x7dencoded"

/-- The value `content['creator']` holds after lines 150-152: the conditional
assignment over the default `""` equals this expression (the stripped text of
the first Dublin Core creator descendant when present and truthy). -/
def creatorText (e : XElem) : String :=
  match findDescByTag e dcCreatorTag with
  | some el =>
    match el.text with
    | some t => if t = "" then "" else pyStrip t
    | none => ""
  | none => ""

/-- The value `content['content']` holds after lines 155-157, analogously. -/
def encodedText (e : XElem) : String :=
  match findDescByTag e contentEncodedTag with
  | some el =>
    match el.text with
    | some t => if t = "" then "" else pyStrip t
    | none => ""
  | none => ""

/-- `content['other_metadata'][key] = value` (line 164): succeeds only while
`other_metadata` still holds a dict; a WordPress child whose bare name is
`other_metadata` replaces the dict by a string, and the Python code then
raises `TypeError` here — modelled as `none`. -/
def omAssign (r : RecDict) (k v : String) : Option RecDict :=
  match dictLookup r "other_metadata" with
  | some (Val.m om) => some (dictSet r "other_metadata" (Val.m (pairsUpsert om k v)))
  | _ => none

/-- One iteration of the loop at lines 160-164: `if key in content` assigns
the string directly, otherwise the pair goes into `other_metadata`. -/
def wpFoldStep (r : RecDict) (kv : String × String) : Option RecDict :=
  if r.any (fun p => p.1 = kv.1) then some (dictSet r kv.1 (Val.s kv.2))
  else omAssign r kv.1 kv.2

/-- The record after lines 108-157, before the WordPress merge: the default
dict with `title`, `link`, `guid` filled through the tag-variant resolver and
`creator`, `content` through the fixed namespace lookups. -/
def baseRecord (e : XElem) : RecDict :=
  dictSet (dictSet (dictSet (dictSet (dictSet initialContent
    "title" (Val.s (findTextByTagVariants e ["title"])))
    "link" (Val.s (findTextByTagVariants e ["link"])))
    "guid" (Val.s (findTextByTagVariants e ["guid"])))
    "creator" (Val.s (creatorText e)))
    "content" (Val.s (encodedText e))

/-- `XMLParser.extract_article_content` (lines 106-166): build the base
record, then merge the WordPress elements. -/
def extractArticleContent (e : XElem) : Option RecDict :=
  List.foldlM wpFoldStep (baseRecord e) (wpElements e)

/-- Lookup of a key inside the record's `other_metadata` dict. -/
def omLookup (r : RecDict) (k : String) : Option String :=
  match dictLookup r "other_metadata" with
  | some (Val.m om) => pairsLookup om k
  | _ => none

/-! ## The document writer: `MarkdownExporter._format_as_markdown` -/

/-- `safe_value` (lines 324-334) on the string values the record holds.  The
`value is None` branch is unreachable here (record values are strings), and
the call `value_str.replace('"', cc)` at line 332 discards its result, so an
embedded double quote is emitted verbatim between the wrapping quotes. -/
def safeValue (v : String) : String :=
  if v = "" then "\"\""
  else if containsSub v ":" || containsSub v "\n" || containsSub v "\"" then
    "\"" ++ v ++ "\""
  else v

/-- The 19 keys emitted by lines 337-355, in source order.  Note that
`creator` and `content` are not among them. -/
def emitKeys : List String :=
  ["title", "post_id", "link", "guid", "description", "pubDate", "post_date",
   "post_date_gmt", "post_modified", "post_modified_gmt", "comment_status",
   "ping_status", "post_name", "status", "post_parent", "menu_order",
   "post_type", "post_password", "is_sticky"]

/-- `content[k]` where the writer formats a string; `none` when the key is
missing (Python `KeyError`) or holds the nested dict. -/
def dictLookupStr (r : RecDict) (k : String) : Option String :=
  match dictLookup r k with
  | some (Val.s v) => some v
  | _ => none

/-- `article_content.get('other_metadata', \x7b\x7d).items()` (line 358): the
default `\x7b\x7d` covers a missing key; a string value (only possible after a
WordPress child named `other_metadata`) makes `.items()` raise — `none`. -/
def omItems (r : RecDict) : Option (List (String × String)) :=
  match dictLookup r "other_metadata" with
  | some (Val.m om) => some om
  | some (Val.s _) => none
  | none => some []

/-- The `lines` list built by `_format_as_markdown` (lines 316-370): the
opening `---`, one `key: safe_value` line per key of `emitKeys` in order (the
19 explicit appends of lines 337-355), one line per `other_metadata` entry in
dict order, the closing `---`, an empty line, and the body (or the
`(No content)` placeholder when the body is empty). -/
def mdLines (r : RecDict) : Option (List String) := do
  let vals ← List.mapM (fun k => dictLookupStr r k) emitKeys
  let om ← omItems r
  let body ← dictLookupStr r "content"
  pure (["---"] ++
    List.map (fun kv => kv.1 ++ ": " ++ safeValue kv.2) (emitKeys.zip vals) ++
    List.map (fun kv => kv.1 ++ ": " ++ safeValue kv.2) om ++
    ["---", ""] ++
    [if body = "" then "(No content)" else body])

/-- `_format_as_markdown` returns `"\n".join(lines)` (line 370). -/
def formatAsMarkdown (r : RecDict) : Option String :=
  Option.map (fun ls => String.intercalate "\n" ls) (mdLines r)

/-! ## `MarkdownExporter._sanitize_filename` -/

/-- The characters replaced by line 310. -/
def forbiddenFilenameChars : List Char :=
  ['<', '>', ':', '"', '/', '\\', '|', '?', '*']

/-- `re.sub` of the forbidden-character class with underscore (line 310). -/
def replaceForbidden (s : String) : String :=
  String.mk (s.data.map (fun c => if c ∈ forbiddenFilenameChars then '_' else c))

/-- `re.sub` of one-or-more whitespace with a single underscore (line 311);
`inRun` records whether the scanner stands inside a whitespace run that has
already produced its underscore. -/
def collapseWs (inRun : Bool) : List Char → List Char
  | [] => []
  | c :: cs =>
    if pySpace c then
      if inRun then collapseWs true cs else '_' :: collapseWs true cs
    else c :: collapseWs false cs

/-- `MarkdownExporter._sanitize_filename` (lines 292-314).  The library calls
`urllib.parse.unquote` (best-effort percent decode, failures swallowed) and
`unicodedata.normalize('NFKC', ·)` are not re-implemented; they enter as the
function parameters `dec` and `nrm`, so every theorem below holds for every
possible behaviour of those two calls.  After them: replace the forbidden
characters, collapse whitespace runs to `_`, truncate to 100 characters. -/
def sanitizeFilename (dec nrm : String → String) (s : String) : String :=
  String.mk (List.take 100 (collapseWs false (replaceForbidden (nrm (dec s))).data))

/-- `f"article_\x7bindex:03d\x7d"` zero padding (line 182). -/
def pad3 (n : Nat) : String :=
  (if n < 10 then "00" else if n < 100 then "0" else "") ++ toString n

/-! ## The Beautiful Soup side: `html_to_markdown` and `_process_element` -/

/-- A Beautiful Soup parse-tree node: a `NavigableString` or a `Tag` with
name, attributes and ordered children.  The soup produced by
`BeautifulSoup(fragment, 'html.parser')` is the `Tag` named `[document]`
holding the parsed fragment. -/
inductive BNode where
  | nstr : String → BNode
  | elt : String → List (String × String) → List BNode → BNode

/-- `.name`: tags have their name, a `NavigableString` has `None`. -/
def BNode.nameOf : BNode → Option String
  | .nstr _ => none
  | .elt n _ _ => some n

/-- `element.get(key, '')`. -/
def battr (e : BNode) (k : String) : String :=
  match e with
  | .nstr _ => ""
  | .elt _ attrs _ =>
    Option.getD (Option.map (fun kv => kv.2) (List.find? (fun kv => kv.1 = k) attrs)) ""

/-- The children of a node. -/
def BNode.kids : BNode → List BNode
  | .nstr _ => []
  | .elt _ _ cs => cs

/-- The Beautiful Soup `.string` property: a `NavigableString` is its own
string; a tag with exactly one child takes that child's `.string`; a tag with
zero or several children has `None`. -/
def bstring : BNode → Option String
  | .nstr s => some s
  | .elt _ _ [c] => bstring c
  | .elt _ _ _ => none

/-- Python `f"...\x7bx\x7d..."` interpolation of a `.string` value:
`str(None)` is the four-letter word `None`. -/
def strOrNone : Option String → String
  | some s => s
  | none => "None"

/-- Assignment to `element.string`: the children are replaced by the single
`NavigableString` holding the new text. -/
def setString : BNode → String → BNode
  | .nstr _, s => .nstr s
  | .elt n a _, s => .elt n a [.nstr s]

mutual

/-- All `NavigableString` texts below (and at) a node in document order, as
`get_text` collects them. -/
def bstrings : BNode → List String
  | .nstr s => [s]
  | .elt _ _ cs => bstringsList cs

def bstringsList : List BNode → List String
  | [] => []
  | c :: cs => bstrings c ++ bstringsList cs

end

/-- `element.get_text()` with the default empty separator. -/
def getTextRaw (e : BNode) : String := String.join (bstrings e)

/-- `soup.get_text('\n', strip=False)` (line 211): all strings joined by a
newline separator. -/
def getTextNl (e : BNode) : String := String.intercalate "\n" (bstrings e)

mutual

/-- All proper descendants in document (preorder) order, as `find` and
`find_all` enumerate candidates. -/
def bdesc : BNode → List BNode
  | .nstr _ => []
  | .elt _ _ cs => bdescList cs

def bdescList : List BNode → List BNode
  | [] => []
  | c :: cs => c :: (bdesc c ++ bdescList cs)

end

/-- `element.find(name)`: the first descendant tag with the given name. -/
def bfind (e : BNode) (n : String) : Option BNode :=
  List.find? (fun c => c.nameOf = some n) (bdesc e)

/-- `element.find_all('li', recursive=False)`: the direct children that are
`li` tags. -/
def directLis (e : BNode) : List BNode :=
  e.kids.filter (fun c => c.nameOf = some "li")

/-- The `elif` chain of `_process_element` (lines 223-285) applied once to one
node.  `recur` performs the recursive `self._process_element(child)` call made
by the paragraph branch (line 247).  Branches in source order; a tag matching
no branch is left unchanged. -/
def caseBody (recur : BNode → BNode) (e : BNode) : BNode :=
  match e.nameOf with
  | some "h1" => setString e ("# " ++ strOrNone (bstring e) ++ "\n\n")
  | some "h2" => setString e ("## " ++ strOrNone (bstring e) ++ "\n\n")
  | some "h3" => setString e ("### " ++ strOrNone (bstring e) ++ "\n\n")
  | some "h4" => setString e ("#### " ++ strOrNone (bstring e) ++ "\n\n")
  | some "h5" => setString e ("##### " ++ strOrNone (bstring e) ++ "\n\n")
  | some "h6" => setString e ("###### " ++ strOrNone (bstring e) ++ "\n\n")
  | some "p" =>
    match bstring e with
    | some s =>
      if s = "" then
        setString e (String.intercalate " " (e.kids.map (fun c =>
          match c with
          | .nstr t => pyStrip t
          | c => getTextRaw (recur c))) ++ "\n\n")
      else setString e (s ++ "\n\n")
    | none =>
      setString e (String.intercalate " " (e.kids.map (fun c =>
        match c with
        | .nstr t => pyStrip t
        | c => getTextRaw (recur c))) ++ "\n\n")
  | some "a" =>
    let href := battr e "href"
    let t :=
      match bstring e with
      | some s => if s = "" then href else s
      | none => href
    setString e ("[" ++ t ++ "](" ++ href ++ ")")
  | some "img" => setString e ("![](" ++ battr e "src" ++ ")")
  | some "figure" =>
    match bfind e "img" with
    | some img =>
      let cap :=
        match bfind e "figcaption" with
        | some fc => strOrNone (bstring fc)
        | none => ""
      setString e ("![" ++ cap ++ "](" ++ battr img "src" ++ ")\n\n")
    | none => e
  | some "figcaption" => setString e ""
  | some "ul" =>
    setString e (String.intercalate "\n"
      ((directLis e).map (fun li => "- " ++ pyStrip (getTextRaw li))) ++ "\n\n")
  | some "ol" =>
    setString e (String.intercalate "\n"
      (((directLis e).enum).map
        (fun p => toString (p.1 + 1) ++ ". " ++ pyStrip (getTextRaw p.2))) ++ "\n\n")
  | some "br" => setString e "\n"
  | _ => e

/-- The three mutually recursive passes of `_process_element`, indexed by a
fuel bound on the recursion depth (the Python recursion is finite on finite
soups; every claim below either fixes a sufficient fuel for its concrete input
or holds for every fuel).  Components: `(full, loop, case)` where

* `full f` is one `_process_element(element)` call: apply the `elif` chain,
  then run the trailing `for child in element.find_all(recursive=True)` loop
  (lines 289-290) over the subtree;
* `loop f` is that trailing loop: since `find_all` snapshots the descendants
  and each one is itself processed with the full method (whose own trailing
  loop re-processes its subtree), the loop processes each still-attached tag
  child with the full method and then loops over it again; children detached
  by a `.string` assignment are `NavigableString`s, on which the processing
  of stale snapshot entries has no remaining effect on the tree;
* `case f` is the `elif` chain with the paragraph branch recursing through
  `full`. -/
def peFns : Nat → ((BNode → BNode) × (BNode → BNode) × (BNode → BNode))
  | 0 => (fun e => e, fun e => e, fun e => e)
  | f + 1 =>
    let full := (peFns f).1
    let loop := (peFns f).2.1
    (fun e => loop (caseBody full e),
     fun e =>
       match e with
       | .nstr s => .nstr s
       | .elt n a cs => .elt n a (cs.map (fun c =>
           match c with
           | .nstr s => BNode.nstr s
           | c => loop (full c))),
     fun e => caseBody full e)

/-- `self._process_element(soup)` (line 208) with fuel `f`. -/
def processElement (f : Nat) (e : BNode) : BNode := (peFns f).1 e

/-! ## The text post-processing of `html_to_markdown` (lines 211-219) -/

/-- Emit one collapsed whitespace run for
`re.sub(r'\n\s*\n\s*\n+', '\n\n', ·)`.  `acc` is the reversed maximal
whitespace run that started at a newline.  When the run holds three or more
newlines the regex matches from its first newline through its last newline
(the greedy preference of the two inner `\s*` extends the match to the last
newline of the run) and is replaced by two newlines, keeping the run's
trailing newline-free whitespace; otherwise there is no match inside the run
and it is kept unchanged. -/
def emitRun (acc : List Char) : List Char :=
  if 3 ≤ acc.count '\n' then
    '\n' :: '\n' :: (acc.takeWhile (fun c => c ≠ '\n')).reverse
  else acc.reverse

/-- The scan of `re.sub(r'\n\s*\n\s*\n+', '\n\n', ·)` (line 214).  `st` is
`none` outside a whitespace run (a match can only start at a newline) and
`some acc` inside the run started at a newline, `acc` reversed. -/
def collapseNl (st : Option (List Char)) : List Char → List Char
  | [] =>
    match st with
    | none => []
    | some acc => emitRun acc
  | c :: cs =>
    match st with
    | none =>
      if c = '\n' then collapseNl (some [c]) cs else c :: collapseNl none cs
    | some acc =>
      if pySpace c then collapseNl (some (c :: acc)) cs
      else emitRun acc ++ (c :: collapseNl none cs)

/-- Does the rest of the line end here?  (`$` of the MULTILINE regex: the next
character is a newline, or the string ends.) -/
def atLineEnd : List Char → Bool
  | [] => true
  | c :: _ => c = '\n'

/-- `re.sub(r' +$', '', ·, flags=re.MULTILINE)` (line 217): a space character
is removed exactly when only spaces stand between it and the next newline or
the end of the string.  Tabs and other whitespace are not removed. -/
def stripLineTrailSpaces : List Char → List Char
  | [] => []
  | c :: cs =>
    if c = ' ' && atLineEnd (cs.dropWhile (fun x => x = ' ')) then
      stripLineTrailSpaces cs
    else c :: stripLineTrailSpaces cs

/-- The post-processing of lines 214-219: collapse newline runs, strip
per-line trailing spaces, strip the whole string. -/
def postprocessText (s : String) : String :=
  String.mk (pyStripL (stripLineTrailSpaces (collapseNl none s.data)))

/-- `MarkdownExporter.html_to_markdown` (lines 199-219) on an already parsed
soup: process the tree, join the strings with newline separators,
post-process.  (For the empty fragment the Python code returns `""` before
parsing; the parsed soup of the empty fragment is the bare `[document]` tag,
on which this pipeline also yields `""`.) -/
def htmlToMarkdown (f : Nat) (doc : BNode) : String :=
  postprocessText (getTextNl (processElement f doc))

/-- `MarkdownExporter.export_article` (lines 176-197), without the filesystem
write: returns the output file name and the written text.  `contentDoc` is
the soup `BeautifulSoup(article_content['content'], 'html.parser')` — HTML
parsing itself is not re-implemented, so the parse tree of the content string
is supplied alongside the record.  `dec`/`nrm` are passed to the filename
sanitizer as in `sanitizeFilename`. -/
def exportArticle (dec nrm : String → String) (fuel : Nat) (r : RecDict)
    (contentDoc : BNode) (index : Nat) : Option (String × String) := do
  let title ← dictLookupStr r "title"
  let filename :=
    if title = "" then "article_" ++ pad3 index ++ ".md"
    else sanitizeFilename dec nrm title ++ ".md"
  let c ← dictLookupStr r "content"
  let r2 := if c = "" then r else dictSet r "content" (Val.s (htmlToMarkdown fuel contentDoc))
  let md ← formatAsMarkdown r2
  pure (filename, md)

/-! ## Whitespace predicates for the converter post-processing proofs -/

/-- Three newlines separated only by whitespace occur somewhere in the list:
an all-whitespace contiguous segment holding at least three newlines (the
shape matched by the collapsing regex of line 214). -/
def HasWsTriple (l : List Char) : Prop :=
  ∃ w, w <:+: l ∧ (∀ c ∈ w, pySpace c = true) ∧ 3 ≤ w.count '\n'

/-- Newline count of the maximal whitespace run at the end of a list. -/
def tailWsNl (l : List Char) : Nat := (l.reverse.takeWhile pySpace).count '\n'

/-- Newline count of the maximal whitespace run at the head of a list. -/
def headWsNl (l : List Char) : Nat := (l.takeWhile pySpace).count '\n'

/-- `WsIns t l`: `l` is `t` with extra whitespace characters inserted — the
relation between the output and the input of the space-stripping pass. -/
inductive WsIns : List Char → List Char → Prop where
  | nil : WsIns [] []
  | keep (c : Char) {t l : List Char} : WsIns t l → WsIns (c :: t) (c :: l)
  | ins {c : Char} {t l : List Char} : pySpace c = true → WsIns t l →
      WsIns t (c :: l)

/-! ## Concrete inputs used by the claim theorems and witnesses -/

/-- An article node whose only child is the namespaced title element
`<wp:title>` as ElementTree reports it after parsing. -/
def artNsTitle : XElem :=
  .mk "item" none [.mk "\x7bhttp://wordpress.org/export/1.2/\x7dtitle" (some "T") []]

/-- An article node with one immediate child in a non-WordPress namespace. -/
def artForeignNs : XElem :=
  .mk "item" none [.mk "\x7bhttp://example.com/ns\x7dcustom" (some "v") []]

/-- An article node with two WordPress children sharing the bare name `foo`
and one WordPress `post_id` child. -/
def artWpDup : XElem :=
  .mk "item" none
    [.mk "\x7bhttp://wordpress.org/export/1.2/\x7dfoo" (some "v1") [],
     .mk "\x7bhttp://wordpress.org/export/1.2/\x7dfoo" (some "v2") [],
     .mk "\x7bhttp://wordpress.org/export/1.2/\x7dpost_id" (some "9") []]

/-- An article node with no children at all. -/
def artEmpty : XElem := .mk "item" none []

/-- The parsed soup of `<h1>Title</h1><p>Body text</p>`. -/
def docHeadingPara : BNode :=
  .elt "[document]" [] [.elt "h1" [] [.nstr "Title"], .elt "p" [] [.nstr "Body text"]]

/-- The parsed soup of `<h1><em>text</em></h1>`: the heading's content is a
single nested inline element, not a single text node. -/
def docNestedHeading : BNode :=
  .elt "[document]" [] [.elt "h1" [] [.elt "em" [] [.nstr "text"]]]

/-- A soup whose only content is the plain text `a<TAB>NEWLINE b`: one line
ends in a tab character. -/
def docTabLine : BNode := .elt "[document]" [] [.nstr "a\t\nb"]

/-- The record of the round-trip scenario: title `Hello: World`, post_id `1`,
content `<h1>Title</h1><p>Body text</p>`. -/
def recRoundTrip : RecDict :=
  dictSet (dictSet (dictSet initialContent "title" (Val.s "Hello: World"))
    "post_id" (Val.s "1")) "content" (Val.s "<h1>Title</h1><p>Body text</p>")

/-- A record whose `creator` field is non-empty. -/
def recWithCreator : RecDict := dictSet initialContent "creator" (Val.s "alice")

/-! ## Generic association-list lemmas -/

theorem find?_map_keyReplace {β : Type} (r : List (String × β)) (k k' : String)
    (v : β) (hne : k' ≠ k) :
    List.find? (fun kv => kv.1 = k')
        (r.map (fun kv => if kv.1 = k then (k, v) else kv)) =
      List.find? (fun kv => kv.1 = k') r := by
  induction r with
  | nil => rfl
  | cons hd tl ih =>
    by_cases h : hd.1 = k
    · simp only [List.map_cons, if_pos h, List.find?_cons]
      have e1 : decide ((k, v).1 = k') = false := by simp [Ne.symm hne]
      have e2 : decide (hd.1 = k') = false := by simp [h, Ne.symm hne]
      rw [e1, e2, ih]
    · simp only [List.map_cons, if_neg h, List.find?_cons]
      by_cases h2 : hd.1 = k'
      · simp [h2]
      · simp only [decide_eq_false h2, ih]

theorem find?_map_present {β : Type} (r : List (String × β)) (k : String) (v : β)
    (hany : r.any (fun kv => kv.1 = k) = true) :
    List.find? (fun kv => kv.1 = k)
        (r.map (fun kv => if kv.1 = k then (k, v) else kv)) = some (k, v) := by
  induction r with
  | nil => simp at hany
  | cons hd tl ih =>
    by_cases h : hd.1 = k
    · simp only [List.map_cons, if_pos h, List.find?_cons]
      simp
    · simp only [List.any_cons, decide_eq_false h, Bool.false_or] at hany
      simp only [List.map_cons, if_neg h, List.find?_cons, decide_eq_false h]
      exact ih hany

theorem alistGet_alistSet {β : Type} (r : List (String × β)) (k k' : String)
    (v : β) :
    alistGet (alistSet r k v) k' = if k' = k then some v else alistGet r k' := by
  by_cases hany : r.any (fun kv => kv.1 = k) = true
  · simp only [alistSet, if_pos hany, alistGet]
    by_cases hk : k' = k
    · subst hk
      rw [find?_map_present r k' v hany]
      simp
    · rw [find?_map_keyReplace r k k' v hk]
      simp [hk]
  · simp only [alistSet, if_neg hany, alistGet]
    rw [List.find?_append]
    have hall : ∀ kv ∈ r, ¬ (kv.1 = k) := by
      intro kv hkv hk
      exact hany (List.any_eq_true.mpr ⟨kv, hkv, by simp [hk]⟩)
    have hnone : List.find? (fun kv => decide (kv.1 = k)) r = none := by
      rw [List.find?_eq_none]
      intro kv hkv
      simpa using hall kv hkv
    by_cases hk : k' = k
    · subst hk
      rw [hnone]
      simp [List.find?]
    · have h1 : List.find? (fun kv => decide (kv.1 = k')) [(k, v)] = none := by
        simp [List.find?, Ne.symm hk]
      rw [h1]
      simp [hk]

theorem alistGet_isSome_alistSet {β : Type} (r : List (String × β))
    (k k' : String) (v : β) (h : (alistGet r k').isSome = true) :
    (alistGet (alistSet r k v) k').isSome = true := by
  rw [alistGet_alistSet]
  by_cases hk : k' = k <;> simp [hk, h]

theorem any_key_map_keyReplace {β : Type} (r : List (String × β))
    (k q : String) (v : β) :
    (r.map (fun kv => if kv.1 = k then (k, v) else kv)).any
        (fun kv => kv.1 = q) = r.any (fun kv => kv.1 = q) := by
  induction r with
  | nil => rfl
  | cons hd tl ih =>
    simp only [List.map_cons, List.any_cons, ih]
    by_cases h : hd.1 = k <;> simp [h]

theorem any_key_alistSet_present {β : Type} (r : List (String × β))
    (k q : String) (v : β) (hany : r.any (fun kv => kv.1 = k) = true) :
    (alistSet r k v).any (fun kv => kv.1 = q) = r.any (fun kv => kv.1 = q) := by
  simp only [alistSet, if_pos hany]
  exact any_key_map_keyReplace r k q v

theorem alistGet_isSome_eq_any {β : Type} (r : List (String × β)) (k : String) :
    (alistGet r k).isSome = r.any (fun kv => kv.1 = k) := by
  rw [Bool.eq_iff_iff]
  simp [alistGet, List.find?_isSome]

/-! ## Character-level facts for the sanitizer -/

theorem collapseWs_mem (l : List Char) (b : Bool) (c : Char)
    (hc : c ∈ collapseWs b l) : c = '_' ∨ c ∈ l := by
  induction l generalizing b with
  | nil => simp [collapseWs] at hc
  | cons hd tl ih =>
    by_cases hsp : pySpace hd = true
    · cases b with
      | false =>
        simp only [collapseWs, hsp, if_true] at hc
        rcases List.mem_cons.mp hc with h | h
        · exact Or.inl h
        · rcases ih true h with h2 | h2
          · exact Or.inl h2
          · exact Or.inr (List.mem_cons_of_mem hd h2)
      | true =>
        simp only [collapseWs, hsp, if_true] at hc
        rcases ih true hc with h2 | h2
        · exact Or.inl h2
        · exact Or.inr (List.mem_cons_of_mem hd h2)
    · simp only [collapseWs, hsp] at hc
      rcases List.mem_cons.mp hc with h | h
      · exact Or.inr (h ▸ List.mem_cons_self hd tl)
      · rcases ih false h with h2 | h2
        · exact Or.inl h2
        · exact Or.inr (List.mem_cons_of_mem hd h2)

theorem replaceForbidden_mem (s : String) (c : Char)
    (hc : c ∈ (replaceForbidden s).data) : c ∉ forbiddenFilenameChars := by
  have hc' : c ∈ s.data.map (fun c => if c ∈ forbiddenFilenameChars then '_' else c) := hc
  rcases List.mem_map.mp hc' with ⟨c0, _, rfl⟩
  by_cases h : c0 ∈ forbiddenFilenameChars
  · simp only [if_pos h]
    decide
  · simp only [if_neg h]
    exact h

/-- C7: for every input string the filename sanitizer returns a string of
length at most 100 containing none of the forbidden characters, and it is a
pure function of its input.  The theorem quantifies over every possible
behaviour `dec` / `nrm` of the two library calls (`urllib.parse.unquote` and
NFKC normalisation), so it holds in particular for their real behaviour;
purity is immediate in the embedding, where the sanitizer is a function. -/
theorem c7_sanitizer_bounded_and_clean (dec nrm : String → String) (s : String) :
    (sanitizeFilename dec nrm s).length ≤ 100 ∧
    (∀ c ∈ (sanitizeFilename dec nrm s).data, c ∉ forbiddenFilenameChars) ∧
    sanitizeFilename dec nrm s = sanitizeFilename dec nrm s := by
  refine ⟨?_, ?_, rfl⟩
  · show (List.take 100 (collapseWs false (replaceForbidden (nrm (dec s))).data)).length ≤ 100
    rw [List.length_take]
    exact Nat.min_le_left _ _
  · intro c hc
    have hc' : c ∈ collapseWs false (replaceForbidden (nrm (dec s))).data :=
      List.take_subset 100 _ hc
    rcases collapseWs_mem _ false c hc' with h | h
    · subst h
      decide
    · exact replaceForbidden_mem _ c h

/-- C9: `safe_value` wraps a value containing a double quote in double quotes
but leaves the embedded quotes unescaped, because line 332 discards the result
of `str.replace`: the emitted text is a quote, the value verbatim, a quote. -/
theorem c9_safe_value_leaves_quotes_unescaped (v : String)
    (h : containsSub v "\"" = true) : safeValue v = "\"" ++ v ++ "\"" := by
  have hne : v ≠ "" := by
    intro he
    rw [he] at h
    exact absurd h (by decide)
  simp [safeValue, hne, h]

/-- Witness for C9 at the concrete value `a"b`. -/
theorem c9_safe_value_leaves_quotes_unescaped_witness :
    safeValue "a\"b" = "\"" ++ "a\"b" ++ "\"" :=
  c9_safe_value_leaves_quotes_unescaped "a\"b" (by decide)

/-- C1 (code bug): the claim describes the intended resolver priority, which
the code's own comments document, but both namespace fallback paths compare
tags against the literal strings built by `wpLiteralTag` / `nsLiteralTag`
(brace-doubling written in a non-f-string), which no parsed tag equals.  At
the failing input — an `item` whose only (descendant) element is the
namespaced `wp:title` with text `T` — the resolver returns `""` although the
claim requires it to find the namespaced title. -/
theorem c1_resolver_namespaced_lookup_is_dead :
    findTextByTagVariants artNsTitle ["title"] = "" ∧
    ∃ d ∈ descendants artNsTitle,
      d.tag = "\x7b" ++ "http://wordpress.org/export/1.2/" ++ "\x7d" ++ "title" ∧
      d.text = some "T" := by
  refine ⟨rfl, XElem.mk "\x7bhttp://wordpress.org/export/1.2/\x7dtitle" (some "T") [],
    ?_, rfl, rfl⟩
  simp [artNsTitle, descendants, descendantsList]

/-- C2 counterexample: on the soup holding the plain text `a<TAB><NL>b` the
converter returns the text unchanged, and its first line ends in a tab — a
whitespace character — because line 217 only removes spaces.  This refutes
the claim that no line of the output ends in whitespace. -/
theorem c2_counterexample_tab_at_line_end :
    htmlToMarkdown 20 docTabLine = "a\t\nb" ∧
    ∃ l1 l2, (htmlToMarkdown 20 docTabLine).data = l1 ++ '\t' :: '\n' :: l2 ∧
      pySpace '\t' = true :=
  ⟨rfl, ['a'], ['b'], rfl, rfl⟩

/-- C4 counterexample: an immediate child in a non-WordPress namespace
(`\x7bhttp://example.com/ns\x7dcustom` with text `v`) is namespaced and its
bare name `custom` is not canonical, yet the extracted record's
`other_metadata` is empty, because line 137 only collects children whose tag
contains `wordpress.org` or the literal `\x7b\x7d`. -/
theorem c4_counterexample_foreign_namespace_child :
    extractArticleContent artForeignNs = some initialContent ∧
    dictLookup initialContent "other_metadata" = some (Val.m []) ∧
    artForeignNs.children.map (fun c => (c.tag, c.text)) =
      [("\x7bhttp://example.com/ns\x7dcustom", some "v")] :=
  ⟨rfl, by decide, rfl⟩

/-- C5 counterexample: a record whose `creator` field holds `alice` is
serialized without any `creator` line — lines 337-355 never emit the
`creator` key — refuting the claim that the header lists all canonical
fields including `creator`. -/
theorem c5_counterexample_creator_line_missing :
    dictLookup recWithCreator "creator" = some (Val.s "alice") ∧
    ∀ ls, mdLines recWithCreator = some ls →
      ∀ l ∈ ls, ¬ (['c', 'r', 'e', 'a', 't', 'o', 'r'] <+: l.data) := by
  refine ⟨by decide, by decide⟩

/-- C10 counterexample: the heading `<h1><em>text</em></h1>` has content that
is not a single text node (it is a single nested inline element), yet the
converter renders `# text`, not `# None`, because Beautiful Soup's `.string`
passes through a chain of single children. -/
theorem c10_counterexample_heading_single_nested_child :
    htmlToMarkdown 20 docNestedHeading = "# text" ∧ "# text" ≠ "# None" :=
  ⟨rfl, by decide⟩

set_option maxRecDepth 10000 in
/-- C6: the round-trip scenario.  Under the actual behaviour of the two
library calls on `Hello: World` (no percent escapes, NFKC-invariant ASCII —
stated as the hypotheses on `dec` and `nrm`), the record with title
`Hello: World`, post_id `1` and content `<h1>Title</h1><p>Body text</p>` is
written to `Hello__World.md`; its header contains the line
`title: "Hello: World"` and its body is `# Title`, a blank line, `Body text`. -/
theorem c6_round_trip_scenario (dec nrm : String → String)
    (hdec : dec "Hello: World" = "Hello: World")
    (hnrm : nrm "Hello: World" = "Hello: World") :
    ∃ out, exportArticle dec nrm 20 recRoundTrip docHeadingPara 0 =
        some ("Hello__World.md", out) ∧
      (∃ rest, out = "---\ntitle: \"Hello: World\"\n" ++ rest) ∧
      (∃ hd, out = hd ++ "---\n\n# Title\n\nBody text") := by
  have hexp : exportArticle dec nrm 20 recRoundTrip docHeadingPara 0 =
      some ("Hello__World.md",
        "---\ntitle: \"Hello: World\"\npost_id: 1\nlink: \"\"\nguid: \"\"\ndescription: \"\"\npubDate: \"\"\npost_date: \"\"\npost_date_gmt: \"\"\npost_modified: \"\"\npost_modified_gmt: \"\"\ncomment_status: \"\"\nping_status: \"\"\npost_name: \"\"\nstatus: \"\"\npost_parent: \"\"\nmenu_order: \"\"\npost_type: \"\"\npost_password: \"\"\nis_sticky: \"\"\n---\n\n# Title\n\nBody text") := by
    simp only [exportArticle, Option.bind_eq_bind,
      show dictLookupStr recRoundTrip "title" = some "Hello: World" from rfl,
      Option.some_bind, sanitizeFilename, hdec, hnrm]
    rfl
  refine ⟨_, hexp, ⟨"post_id: 1\nlink: \"\"\nguid: \"\"\ndescription: \"\"\npubDate: \"\"\npost_date: \"\"\npost_date_gmt: \"\"\npost_modified: \"\"\npost_modified_gmt: \"\"\ncomment_status: \"\"\nping_status: \"\"\npost_name: \"\"\nstatus: \"\"\npost_parent: \"\"\nmenu_order: \"\"\npost_type: \"\"\npost_password: \"\"\nis_sticky: \"\"\n---\n\n# Title\n\nBody text", rfl⟩,
    ⟨"---\ntitle: \"Hello: World\"\npost_id: 1\nlink: \"\"\nguid: \"\"\ndescription: \"\"\npubDate: \"\"\npost_date: \"\"\npost_date_gmt: \"\"\npost_modified: \"\"\npost_modified_gmt: \"\"\ncomment_status: \"\"\nping_status: \"\"\npost_name: \"\"\nstatus: \"\"\npost_parent: \"\"\nmenu_order: \"\"\npost_type: \"\"\npost_password: \"\"\nis_sticky: \"\"\n", rfl⟩⟩

set_option maxRecDepth 10000 in
/-- Witness for C6: the hypotheses hold for the identity functions. -/
theorem c6_round_trip_scenario_witness :
    ∃ out, exportArticle id id 20 recRoundTrip docHeadingPara 0 =
        some ("Hello__World.md", out) ∧
      (∃ rest, out = "---\ntitle: \"Hello: World\"\n" ++ rest) ∧
      (∃ hd, out = hd ++ "---\n\n# Title\n\nBody text") :=
  c6_round_trip_scenario id id rfl rfl

theorem mem_descendants_of_mem_children (e : XElem) (c : XElem)
    (hc : c ∈ e.children) : c ∈ descendants e := by
  cases e with
  | mk t x cs =>
    simp only [XElem.children] at hc
    simp only [descendants]
    induction cs with
    | nil => simp at hc
    | cons hd tl ih =>
      rcases List.mem_cons.mp hc with rfl | h
      · simp [descendantsList]
      · simp only [descendantsList]
        exact List.mem_cons_of_mem hd (List.mem_append_right _ (ih h))

/-- Core of the no-match behaviour: with ElementTree-well-formed descendant
tags (at most one opening brace each, true of every tag the parser produces:
`local` or `\x7buri\x7dlocal`), a variant list none of whose members matches
any descendant — bare or with any namespace attached — makes
`_find_element_by_tag_variants` return `None`; in particular no descendant
tag can equal either dead literal fallback token. -/
theorem resolver_missing_none (e : XElem)
    (hwf : ∀ d ∈ descendants e, (d.tag.data.count '\x7b') ≤ 1) :
    ∀ vs, (∀ d ∈ descendants e, ∀ v ∈ vs,
      d.tag ≠ v ∧ ∀ ns, d.tag ≠ "\x7b" ++ ns ++ "\x7d" ++ v) →
    findElementByTagVariants e vs = none := by
  intro vs
  induction vs with
  | nil => intro _; rfl
  | cons v rest ih =>
    intro hm
    have h1 : findChildByTag e v = none := by
      rw [findChildByTag, List.find?_eq_none]
      intro c hc hp
      have : c.tag = v := by simpa using hp
      exact (hm c (mem_descendants_of_mem_children e c hc) v
        (List.mem_cons_self v rest)).1 this
    have h2 : findDescByTag e (wpLiteralTag v) = none := by
      rw [findDescByTag, List.find?_eq_none]
      intro d hd hp
      have heq : d.tag = wpLiteralTag v := by simpa using hp
      have hcount := hwf d hd
      rw [heq] at hcount
      have h3 : ((wpLiteralTag v).data.count '\x7b') =
          3 + v.data.count '\x7b' := by
        rw [wpLiteralTag, String.data_append, List.count_append]
        have h4 : List.count '\x7b' ("\x7b\x7b\x7b*\x7d\x7d\x7d:" : String).data = 3 := by
          decide
        omega
      omega
    have h3 : findDescByTag e (nsLiteralTag v) = none := by
      rw [findDescByTag, List.find?_eq_none]
      intro d hd hp
      have heq : d.tag = nsLiteralTag v := by simpa using hp
      have hsplit : nsLiteralTag v = "\x7b" ++ "\x7b\x7b*\x7d\x7d" ++ "\x7d" ++ v := by
        rw [nsLiteralTag]
        have : ("\x7b\x7b\x7b*\x7d\x7d\x7d" : String) =
            "\x7b" ++ "\x7b\x7b*\x7d\x7d" ++ "\x7d" := by decide
        rw [this]
      exact (hm d hd v (List.mem_cons_self v rest)).2 "\x7b\x7b*\x7d\x7d"
        (by rw [heq, hsplit])
    simp only [findElementByTagVariants, h1, h2, h3]
    exact ih (fun d hd w hw => hm d hd w (List.mem_cons_of_mem v hw))

/-- `etFind` at the first fallback path `".//" ++ wpLiteralTag v`: the
literal-token descendant search. -/
theorem etFind_wpPath (e : XElem) (v : String) :
    etFind e (".//" ++ wpLiteralTag v) =
      .ok (findDescByTag e (wpLiteralTag v)) := by
  have hdata : (".//" ++ wpLiteralTag v).data = nsPathHead ++ (':' :: v.data) := by
    rw [wpLiteralTag, String.data_append, String.data_append]
    rfl
  have hpfx : nsPathHead <+: (".//" ++ wpLiteralTag v).data := by
    rw [hdata]
    exact ⟨':' :: v.data, rfl⟩
  unfold etFind
  rw [if_pos hpfx, hdata]
  rfl

/-- `etFind` at the second fallback path `".//" ++ nsLiteralTag v`. -/
theorem etFind_nsPath (e : XElem) (v : String) :
    etFind e (".//" ++ nsLiteralTag v) =
      .ok (findDescByTag e (nsLiteralTag v)) := by
  have hdata : (".//" ++ nsLiteralTag v).data = nsPathHead ++ v.data := by
    rw [nsLiteralTag, String.data_append, String.data_append]
    rfl
  have hpfx : nsPathHead <+: (".//" ++ nsLiteralTag v).data := by
    rw [hdata]
    exact ⟨v.data, rfl⟩
  unfold etFind
  rw [if_pos hpfx, hdata]
  rfl

/-- `etFind` at a plain tag token: the direct-children search. -/
theorem etFind_plain (e : XElem) (v : String) (hv : xpathPlainName v = true) :
    etFind e v = .ok (findChildByTag e v) := by
  have hnp : ¬ (nsPathHead <+: v.data) := by
    rintro ⟨t, ht⟩
    have hv2 := hv
    rw [xpathPlainName] at hv2
    simp only [Bool.and_eq_true] at hv2
    have hall := hv2.2
    rw [← ht, List.all_append] at hall
    simp only [Bool.and_eq_true] at hall
    have h1 := hall.1
    have h2 : nsPathHead.all xpathPlainChar = false := by decide
    rw [h2] at h1
    exact absurd h1 (by decide)
  unfold etFind
  rw [if_neg hnp, if_pos hv]

/-- When every variant is a plain tag token and the abstract `find` behaves as
the library does on the modelled fragment, the exception-aware resolver
reduces to the exception-free model: no call can raise. -/
theorem findElementByTagVariantsE_agrees
    (xfind : XElem → String → Except Unit (Option XElem)) (e : XElem)
    (hplain : ∀ (f : XElem) (v : String), xpathPlainName v = true →
      xfind f v = .ok (findChildByTag f v))
    (hwp : ∀ (f : XElem) (v : String),
      xfind f (".//" ++ wpLiteralTag v) = .ok (findDescByTag f (wpLiteralTag v)))
    (hns : ∀ (f : XElem) (v : String),
      xfind f (".//" ++ nsLiteralTag v) = .ok (findDescByTag f (nsLiteralTag v))) :
    ∀ vs, (∀ v ∈ vs, xpathPlainName v = true) →
    findElementByTagVariantsE xfind e vs = .ok (findElementByTagVariants e vs) := by
  intro vs
  induction vs with
  | nil => intro _; rfl
  | cons v rest ih =>
    intro hv
    have h1 := hplain e v (hv v (List.mem_cons_self v rest))
    simp only [findElementByTagVariantsE, findElementByTagVariants, h1,
      hwp e v, hns e v]
    cases findChildByTag e v with
    | some m => rfl
    | none =>
      cases findDescByTag e (wpLiteralTag v) with
      | some m => rfl
      | none =>
        cases findDescByTag e (nsLiteralTag v) with
        | some m => rfl
        | none => exact ih (fun w hw => hv w (List.mem_cons_of_mem v hw))

/-- C8 (amended): the Field Resolver's no-match behaviour, with the raising of
the underlying path parser made explicit.  `xfind` is `element.find` with
`namespaces=None`, constrained by the two library facts the program relies
on: a plain tag token selects the first immediate child with exactly that
tag, and each literal brace fallback path selects the first descendant with
the literal brace-laden tag.  For a node whose descendant tags are
ElementTree-well-formed (at most one opening brace) and a variant list of
plain tag names, if no descendant's tag matches any variant — bare or with
any namespace attached — the resolver returns the empty string and raises
nothing.  Over arbitrary variant lists the original claim is false: a
prefixed variant such as `"dc:creator"` makes `element.find` raise
`SyntaxError`, which propagates out of the resolver (see the
counterexample). -/
theorem c8_resolver_plain_nomatch_no_raise
    (xfind : XElem → String → Except Unit (Option XElem))
    (e : XElem) (variants : List String)
    (hplain : ∀ (f : XElem) (v : String), xpathPlainName v = true →
      xfind f v = .ok (findChildByTag f v))
    (hwp : ∀ (f : XElem) (v : String),
      xfind f (".//" ++ wpLiteralTag v) = .ok (findDescByTag f (wpLiteralTag v)))
    (hns : ∀ (f : XElem) (v : String),
      xfind f (".//" ++ nsLiteralTag v) = .ok (findDescByTag f (nsLiteralTag v)))
    (hpv : ∀ v ∈ variants, xpathPlainName v = true)
    (hwf : ∀ d ∈ descendants e, (d.tag.data.count '\x7b') ≤ 1)
    (hmiss : ∀ d ∈ descendants e, ∀ v ∈ variants,
      d.tag ≠ v ∧ ∀ ns, d.tag ≠ "\x7b" ++ ns ++ "\x7d" ++ v) :
    findTextByTagVariantsE xfind e variants = .ok "" := by
  have hag := findElementByTagVariantsE_agrees xfind e hplain hwp hns variants hpv
  have hnone := resolver_missing_none e hwf variants hmiss
  rw [findTextByTagVariantsE, hag, hnone]

/-- Witness for C8 at the fragment model of `find`, a childless item node and
the plain variant list `["title"]`. -/
theorem c8_resolver_plain_nomatch_no_raise_witness :
    (∀ v ∈ (["title"] : List String), xpathPlainName v = true) ∧
    (∀ d ∈ descendants artEmpty, (d.tag.data.count '\x7b') ≤ 1) ∧
    (∀ d ∈ descendants artEmpty, ∀ v ∈ (["title"] : List String),
      d.tag ≠ v ∧ ∀ ns, d.tag ≠ "\x7b" ++ ns ++ "\x7d" ++ v) ∧
    findTextByTagVariantsE etFind artEmpty ["title"] = .ok "" := by
  have hpv : ∀ v ∈ (["title"] : List String), xpathPlainName v = true := by
    intro v hv
    rw [List.mem_singleton] at hv
    subst hv
    rfl
  have h1 : ∀ d ∈ descendants artEmpty, (d.tag.data.count '\x7b') ≤ 1 := by
    intro d hd
    simp [artEmpty, descendants, descendantsList] at hd
  have h2 : ∀ d ∈ descendants artEmpty, ∀ v ∈ (["title"] : List String),
      d.tag ≠ v ∧ ∀ ns, d.tag ≠ "\x7b" ++ ns ++ "\x7d" ++ v := by
    intro d hd
    simp [artEmpty, descendants, descendantsList] at hd
  exact ⟨hpv, h1, h2, c8_resolver_plain_nomatch_no_raise etFind artEmpty ["title"]
    etFind_plain etFind_wpPath etFind_nsPath hpv h1 h2⟩

/-- Refutes C8 as stated: the resolver does not return for every variant
list.  `element.find("dc:creator")` — a prefixed name, with the program's
`namespaces=None` — raises `SyntaxError` inside `ElementPath.xpath_tokenizer`
before any matching is attempted, and the exception propagates out of
`_find_text_by_tag_variants`: on a childless item, where no descendant could
match, the resolver still fails instead of returning the empty string. -/
theorem c8_counterexample_prefixed_variant_raises :
    findTextByTagVariantsE etFind artEmpty ["dc:creator"] = .error () := by
  rfl

/-! ## Lemmas about the WordPress merge fold -/

theorem keys_alistSet_present {β : Type} (r : List (String × β)) (k : String)
    (v : β) (hany : r.any (fun kv => kv.1 = k) = true) :
    (alistSet r k v).map Prod.fst = r.map Prod.fst := by
  simp only [alistSet, if_pos hany, List.map_map]
  refine List.map_congr_left (fun kv _ => ?_)
  by_cases h : kv.1 = k <;> simp [h, Function.comp]

theorem alistSet_keys_nodup {β : Type} (r : List (String × β)) (k : String)
    (v : β) (h : (r.map Prod.fst).Nodup) :
    ((alistSet r k v).map Prod.fst).Nodup := by
  by_cases hany : r.any (fun kv => kv.1 = k) = true
  · rw [keys_alistSet_present r k v hany]
    exact h
  · simp only [alistSet, if_neg hany, List.map_append, List.map_cons,
      List.map_nil]
    refine List.Nodup.append h (List.nodup_singleton k) ?_
    intro x hx hk
    rcases List.mem_singleton.mp hk with rfl
    rcases List.mem_map.mp hx with ⟨kv, hkv, rfl⟩
    exact hany (List.any_eq_true.mpr ⟨kv, hkv, by simp⟩)

theorem wpElements_keys_nodup (e : XElem) :
    ((wpElements e).map Prod.fst).Nodup := by
  rw [wpElements]
  suffices h : ∀ (cs : List XElem) (acc : List (String × String)),
      (acc.map Prod.fst).Nodup →
      ((List.foldl (fun acc c =>
        if isWpTag c.tag then pairsUpsert acc (cleanupTagName c.tag) (elemTextOrEmpty c)
        else acc) acc cs).map Prod.fst).Nodup by
    exact h e.children [] (by simp)
  intro cs
  induction cs with
  | nil => intro acc hacc; exact hacc
  | cons c tl ih =>
    intro acc hacc
    simp only [List.foldl_cons]
    by_cases hw : isWpTag c.tag = true
    · rw [if_pos hw]
      exact ih _ (alistSet_keys_nodup acc _ _ hacc)
    · rw [if_neg hw]
      exact ih acc hacc

theorem match_getLast?_cons {α γ : Type} (d : α) (ds : List α) (f : α → γ)
    (x y : γ) :
    (match (d :: ds).getLast? with | some c => f c | none => x) =
    (match (d :: ds).getLast? with | some c => f c | none => y) := by
  cases hgl : (d :: ds).getLast? with
  | none => exact absurd hgl (by simp)
  | some c => rfl

theorem foldl_upsert_lookup (cs : List XElem) (acc : List (String × String))
    (k : String) :
    pairsLookup (List.foldl (fun acc c =>
        if isWpTag c.tag then pairsUpsert acc (cleanupTagName c.tag) (elemTextOrEmpty c)
        else acc) acc cs) k =
      match List.getLast? (cs.filter
          (fun c => isWpTag c.tag && cleanupTagName c.tag = k)) with
      | some c => some (elemTextOrEmpty c)
      | none => pairsLookup acc k := by
  induction cs generalizing acc with
  | nil => simp
  | cons c tl ih =>
    simp only [List.foldl_cons]
    by_cases hw : isWpTag c.tag = true
    · by_cases hk : cleanupTagName c.tag = k
      · have hfil : (c :: tl).filter
            (fun c => isWpTag c.tag && cleanupTagName c.tag = k) =
            c :: tl.filter (fun c => isWpTag c.tag && cleanupTagName c.tag = k) := by
          rw [List.filter_cons_of_pos]
          simp [hw, hk]
        rw [hfil, if_pos hw, ih]
        cases hfl : tl.filter (fun c => isWpTag c.tag && cleanupTagName c.tag = k) with
        | nil =>
          show pairsLookup (pairsUpsert acc (cleanupTagName c.tag) (elemTextOrEmpty c)) k =
            some (elemTextOrEmpty c)
          rw [pairsLookup, pairsUpsert, alistGet_alistSet, if_pos hk.symm]
        | cons d ds =>
          show (match (d :: ds).getLast? with
              | some c => some (elemTextOrEmpty c)
              | none => pairsLookup (pairsUpsert acc (cleanupTagName c.tag) (elemTextOrEmpty c)) k) =
            (match (c :: d :: ds).getLast? with
              | some c => some (elemTextOrEmpty c)
              | none => pairsLookup acc k)
          rw [List.getLast?_cons_cons]
          exact match_getLast?_cons d ds (fun c => some (elemTextOrEmpty c))
            (pairsLookup (pairsUpsert acc (cleanupTagName c.tag) (elemTextOrEmpty c)) k)
            (pairsLookup acc k)
      · have hfil : (c :: tl).filter
            (fun c => isWpTag c.tag && cleanupTagName c.tag = k) =
            tl.filter (fun c => isWpTag c.tag && cleanupTagName c.tag = k) := by
          rw [List.filter_cons_of_neg]
          simp [hk]
        rw [hfil, if_pos hw, ih]
        cases hfl : tl.filter (fun c => isWpTag c.tag && cleanupTagName c.tag = k) with
        | nil =>
          show pairsLookup (pairsUpsert acc (cleanupTagName c.tag) (elemTextOrEmpty c)) k =
            pairsLookup acc k
          rw [pairsLookup, pairsUpsert, pairsLookup, alistGet_alistSet,
            if_neg (fun hh => hk hh.symm)]
        | cons d ds =>
          exact match_getLast?_cons d ds (fun c => some (elemTextOrEmpty c))
            (pairsLookup (pairsUpsert acc (cleanupTagName c.tag) (elemTextOrEmpty c)) k)
            (pairsLookup acc k)
    · have hfil : (c :: tl).filter
          (fun c => isWpTag c.tag && cleanupTagName c.tag = k) =
          tl.filter (fun c => isWpTag c.tag && cleanupTagName c.tag = k) := by
        rw [List.filter_cons_of_neg]
        simp [hw]
      rw [hfil, if_neg hw]
      exact ih acc

theorem alistGet_eq_none_iff {β : Type} (r : List (String × β)) (k : String) :
    alistGet r k = none ↔ ∀ kv ∈ r, kv.1 ≠ k := by
  simp [alistGet, List.find?_eq_none]

theorem wpFoldStep_some_cases (r r1 : RecDict) (kv : String × String)
    (h : wpFoldStep r kv = some r1) :
    (r.any (fun p => p.1 = kv.1) = true ∧ r1 = dictSet r kv.1 (Val.s kv.2)) ∨
    (r.any (fun p => p.1 = kv.1) = false ∧ ∃ om,
      dictLookup r "other_metadata" = some (Val.m om) ∧
      r1 = dictSet r "other_metadata" (Val.m (pairsUpsert om kv.1 kv.2))) := by
  by_cases hg : r.any (fun p => p.1 = kv.1) = true
  · left
    rw [wpFoldStep, if_pos hg] at h
    exact ⟨hg, (Option.some_inj.mp h).symm⟩
  · right
    rw [wpFoldStep, if_neg hg, omAssign] at h
    refine ⟨Bool.eq_false_iff.mpr hg, ?_⟩
    cases hom : dictLookup r "other_metadata" with
    | none => rw [hom] at h; cases h
    | some w =>
      cases w with
      | s t => rw [hom] at h; cases h
      | m om =>
        rw [hom] at h
        exact ⟨om, rfl, (Option.some_inj.mp h).symm⟩

theorem foldlM_wp_keys (wps : List (String × String)) :
    ∀ (r r' : RecDict), List.foldlM wpFoldStep r wps = some r' →
    ∀ q, r'.any (fun p => p.1 = q) = r.any (fun p => p.1 = q) := by
  induction wps with
  | nil =>
    intro r r' h q
    simp only [List.foldlM_nil] at h
    rw [Option.some_inj.mp h]
  | cons kv tl ih =>
    intro r r' h q
    rw [List.foldlM_cons] at h
    cases hstep : wpFoldStep r kv with
    | none => rw [hstep] at h; simp at h
    | some r1 =>
      rw [hstep] at h
      simp only [Option.bind_eq_bind, Option.some_bind] at h
      have hq := ih r1 r' h q
      rcases wpFoldStep_some_cases r r1 kv hstep with ⟨hg, rfl⟩ | ⟨hg, om, hom, rfl⟩
      · rw [hq]
        exact any_key_alistSet_present r kv.1 q (Val.s kv.2) hg
      · rw [hq]
        refine any_key_alistSet_present r "other_metadata" q
          (Val.m (pairsUpsert om kv.1 kv.2)) ?_
        have : (dictLookup r "other_metadata").isSome = true := by rw [hom]; rfl
        rw [show dictLookup r "other_metadata" =
          alistGet r "other_metadata" from rfl, alistGet_isSome_eq_any] at this
        exact this

theorem foldlM_wp_lookup_untouched (wps : List (String × String)) :
    ∀ (r r' : RecDict), List.foldlM wpFoldStep r wps = some r' →
    ∀ q, (∀ kv ∈ wps, kv.1 ≠ q) → q ≠ "other_metadata" →
    dictLookup r' q = dictLookup r q := by
  induction wps with
  | nil =>
    intro r r' h q _ _
    simp only [List.foldlM_nil] at h
    rw [Option.some_inj.mp h]
  | cons kv tl ih =>
    intro r r' h q hne hq
    rw [List.foldlM_cons] at h
    cases hstep : wpFoldStep r kv with
    | none => rw [hstep] at h; simp at h
    | some r1 =>
      rw [hstep] at h
      simp only [Option.bind_eq_bind, Option.some_bind] at h
      have hrest := ih r1 r' h q (fun x hx => hne x (List.mem_cons_of_mem kv hx)) hq
      rw [hrest]
      rcases wpFoldStep_some_cases r r1 kv hstep with ⟨hg, rfl⟩ | ⟨hg, om, hom, rfl⟩
      · rw [show dictLookup (dictSet r kv.1 (Val.s kv.2)) q =
          alistGet (alistSet r kv.1 (Val.s kv.2)) q from rfl, alistGet_alistSet,
          if_neg (fun hh => hne kv (List.mem_cons_self kv tl) hh.symm)]
        rfl
      · rw [show dictLookup (dictSet r "other_metadata"
            (Val.m (pairsUpsert om kv.1 kv.2))) q =
          alistGet (alistSet r "other_metadata" (Val.m (pairsUpsert om kv.1 kv.2))) q
          from rfl, alistGet_alistSet, if_neg hq]
        rfl

theorem foldlM_wp_preserves_isSome (wps : List (String × String))
    (r r' : RecDict) (h : List.foldlM wpFoldStep r wps = some r') (q : String)
    (hs : (dictLookup r q).isSome = true) : (dictLookup r' q).isSome = true := by
  rw [show dictLookup r' q = alistGet r' q from rfl, alistGet_isSome_eq_any,
    foldlM_wp_keys wps r r' h q]
  rw [show dictLookup r q = alistGet r q from rfl, alistGet_isSome_eq_any] at hs
  exact hs

theorem dictLookup_dictSet (r : RecDict) (k k' : String) (v : Val) :
    dictLookup (dictSet r k v) k' = if k' = k then some v else dictLookup r k' :=
  alistGet_alistSet r k k' v

theorem pairsLookup_pairsUpsert (om : List (String × String)) (k k' v : String) :
    pairsLookup (pairsUpsert om k v) k' =
      if k' = k then some v else pairsLookup om k' :=
  alistGet_alistSet om k k' v

theorem wpFoldStep_keys (r r1 : RecDict) (kv : String × String)
    (h : wpFoldStep r kv = some r1) (q : String) :
    r1.any (fun p => p.1 = q) = r.any (fun p => p.1 = q) := by
  rcases wpFoldStep_some_cases r r1 kv h with ⟨hg, rfl⟩ | ⟨hg, om, hom, rfl⟩
  · exact any_key_alistSet_present r kv.1 q (Val.s kv.2) hg
  · refine any_key_alistSet_present r "other_metadata" q
      (Val.m (pairsUpsert om kv.1 kv.2)) ?_
    have hs : (dictLookup r "other_metadata").isSome = true := by rw [hom]; rfl
    rw [show dictLookup r "other_metadata" = alistGet r "other_metadata" from rfl,
      alistGet_isSome_eq_any] at hs
    exact hs

theorem foldlM_wp_lookup_set (wps : List (String × String)) :
    ∀ (r r' : RecDict), List.foldlM wpFoldStep r wps = some r' →
    ∀ (k v : String), pairsLookup wps k = some v →
    (wps.map Prod.fst).Nodup →
    r.any (fun p => p.1 = k) = true → k ≠ "other_metadata" →
    dictLookup r' k = some (Val.s v) := by
  induction wps with
  | nil =>
    intro r r' h k v hfind _ _ _
    simp [pairsLookup, alistGet] at hfind
  | cons kv tl ih =>
    intro r r' h k v hfind hnodup hany hkom
    rw [List.foldlM_cons] at h
    cases hstep : wpFoldStep r kv with
    | none => rw [hstep] at h; simp at h
    | some r1 =>
      rw [hstep] at h
      simp only [Option.bind_eq_bind, Option.some_bind] at h
      by_cases hk : kv.1 = k
      · have hv : kv.2 = v := by
          rw [pairsLookup, alistGet, List.find?_cons_of_pos _ (by simp [hk])] at hfind
          simpa using hfind
        have hg : r.any (fun p => p.1 = kv.1) = true := by rw [hk]; exact hany
        rcases wpFoldStep_some_cases r r1 kv hstep with ⟨_, rfl⟩ | ⟨hgf, _⟩
        · have hnotin : ∀ kv' ∈ tl, kv'.1 ≠ k := by
            intro kv' hkv' heq
            have hmem : kv.1 ∈ tl.map Prod.fst := by
              rw [hk, ← heq]
              exact List.mem_map.mpr ⟨kv', hkv', rfl⟩
            exact (List.nodup_cons.mp hnodup).1 hmem
          rw [foldlM_wp_lookup_untouched tl _ r' h k hnotin hkom,
            dictLookup_dictSet, if_pos hk.symm, hv]
        · rw [hg] at hgf
          cases hgf
      · have hfind' : pairsLookup tl k = some v := by
          rw [pairsLookup, alistGet, List.find?_cons_of_neg _ (by simp [hk])] at hfind
          exact hfind
        have hany1 : r1.any (fun p => p.1 = k) = true := by
          rw [wpFoldStep_keys r r1 kv hstep k]
          exact hany
        exact ih r1 r' h k v hfind' (List.nodup_cons.mp hnodup).2 hany1 hkom

theorem foldlM_wp_om_preserved (wps : List (String × String)) :
    ∀ (r r' : RecDict), List.foldlM wpFoldStep r wps = some r' →
    ∀ (k v : String), (∀ kv ∈ wps, kv.1 ≠ k) →
    (∀ kv ∈ wps, kv.1 ≠ "other_metadata") →
    omLookup r k = some v → omLookup r' k = some v := by
  induction wps with
  | nil =>
    intro r r' h k v _ _ hcur
    simp only [List.foldlM_nil] at h
    rw [← Option.some_inj.mp h]
    exact hcur
  | cons kv tl ih =>
    intro r r' h k v hne hom hcur
    rw [List.foldlM_cons] at h
    cases hstep : wpFoldStep r kv with
    | none => rw [hstep] at h; simp at h
    | some r1 =>
      rw [hstep] at h
      simp only [Option.bind_eq_bind, Option.some_bind] at h
      refine ih r1 r' h k v (fun x hx => hne x (List.mem_cons_of_mem _ hx))
        (fun x hx => hom x (List.mem_cons_of_mem _ hx)) ?_
      rcases wpFoldStep_some_cases r r1 kv hstep with ⟨hg, rfl⟩ | ⟨hg, om, homv, rfl⟩
      · rw [omLookup, dictLookup_dictSet,
          if_neg (fun hh => hom kv (List.mem_cons_self _ _) hh.symm)]
        exact hcur
      · rw [omLookup, dictLookup_dictSet, if_pos rfl]
        show pairsLookup (pairsUpsert om kv.1 kv.2) k = some v
        rw [pairsLookup_pairsUpsert,
          if_neg (fun hh => hne kv (List.mem_cons_self _ _) hh.symm)]
        rw [omLookup, homv] at hcur
        exact hcur

theorem foldlM_wp_om_entry (wps : List (String × String)) :
    ∀ (r r' : RecDict), List.foldlM wpFoldStep r wps = some r' →
    ∀ (k v : String), pairsLookup wps k = some v →
    (wps.map Prod.fst).Nodup →
    (∀ kv ∈ wps, kv.1 ≠ "other_metadata") →
    r.any (fun p => p.1 = k) = false →
    (∃ om0, dictLookup r "other_metadata" = some (Val.m om0)) →
    omLookup r' k = some v := by
  induction wps with
  | nil =>
    intro r r' h k v hfind
    simp [pairsLookup, alistGet] at hfind
  | cons kv tl ih =>
    intro r r' h k v hfind hnodup hom hnk hwf
    rw [List.foldlM_cons] at h
    cases hstep : wpFoldStep r kv with
    | none => rw [hstep] at h; simp at h
    | some r1 =>
      rw [hstep] at h
      simp only [Option.bind_eq_bind, Option.some_bind] at h
      by_cases hk : kv.1 = k
      · have hv : kv.2 = v := by
          rw [pairsLookup, alistGet, List.find?_cons_of_pos _ (by simp [hk])] at hfind
          simpa using hfind
        rcases wpFoldStep_some_cases r r1 kv hstep with ⟨hg, _⟩ | ⟨hg, om, homv, rfl⟩
        · rw [hk, hnk] at hg
          cases hg
        · have hcur : omLookup (dictSet r "other_metadata"
              (Val.m (pairsUpsert om kv.1 kv.2))) k = some v := by
            rw [omLookup, dictLookup_dictSet, if_pos rfl]
            show pairsLookup (pairsUpsert om kv.1 kv.2) k = some v
            rw [pairsLookup_pairsUpsert, if_pos hk.symm, hv]
          have hnotin : ∀ kv' ∈ tl, kv'.1 ≠ k := by
            intro kv' hkv' heq
            have hmem : kv.1 ∈ tl.map Prod.fst := by
              rw [hk, ← heq]
              exact List.mem_map.mpr ⟨kv', hkv', rfl⟩
            exact (List.nodup_cons.mp hnodup).1 hmem
          exact foldlM_wp_om_preserved tl _ r' h k v hnotin
            (fun x hx => hom x (List.mem_cons_of_mem _ hx)) hcur
      · have hfind' : pairsLookup tl k = some v := by
          rw [pairsLookup, alistGet, List.find?_cons_of_neg _ (by simp [hk])] at hfind
          exact hfind
        have hnk1 : r1.any (fun p => p.1 = k) = false := by
          rw [wpFoldStep_keys r r1 kv hstep k]
          exact hnk
        have hwf1 : ∃ om0, dictLookup r1 "other_metadata" = some (Val.m om0) := by
          rcases wpFoldStep_some_cases r r1 kv hstep with ⟨hg, rfl⟩ | ⟨hg, om, homv, rfl⟩
          · obtain ⟨om0, hom0⟩ := hwf
            refine ⟨om0, ?_⟩
            rw [dictLookup_dictSet,
              if_neg (fun hh => hom kv (List.mem_cons_self _ _) hh.symm)]
            exact hom0
          · exact ⟨pairsUpsert om kv.1 kv.2, by rw [dictLookup_dictSet, if_pos rfl]⟩
        exact ih r1 r' h k v hfind' (List.nodup_cons.mp hnodup).2
          (fun x hx => hom x (List.mem_cons_of_mem _ hx)) hnk1 hwf1

theorem baseRecord_lookup (e : XElem) (q : String) :
    dictLookup (baseRecord e) q =
      if q = "content" then some (Val.s (encodedText e))
      else if q = "creator" then some (Val.s (creatorText e))
      else if q = "guid" then some (Val.s (findTextByTagVariants e ["guid"]))
      else if q = "link" then some (Val.s (findTextByTagVariants e ["link"]))
      else if q = "title" then some (Val.s (findTextByTagVariants e ["title"]))
      else dictLookup initialContent q := by
  simp only [baseRecord, dictLookup_dictSet]

theorem baseRecord_any (e : XElem) (q : String) :
    (baseRecord e).any (fun p => p.1 = q) =
      initialContent.any (fun p => p.1 = q) := by
  rw [← alistGet_isSome_eq_any, ← alistGet_isSome_eq_any]
  show (dictLookup (baseRecord e) q).isSome = (dictLookup initialContent q).isSome
  rw [baseRecord_lookup]
  by_cases h1 : q = "content"
  · subst h1; rw [if_pos rfl]; rfl
  rw [if_neg h1]
  by_cases h2 : q = "creator"
  · subst h2; rw [if_pos rfl]; rfl
  rw [if_neg h2]
  by_cases h3 : q = "guid"
  · subst h3; rw [if_pos rfl]; rfl
  rw [if_neg h3]
  by_cases h4 : q = "link"
  · subst h4; rw [if_pos rfl]; rfl
  rw [if_neg h4]
  by_cases h5 : q = "title"
  · subst h5; rw [if_pos rfl]; rfl
  rw [if_neg h5]

/-- C3: for every article node whose extraction succeeds, every canonical
field is a key of the returned record, and whenever the field is absent from
the source node — no WordPress child carries its bare name and (for the five
fields with an extra extraction channel) that channel also resolves to the
empty string — its value is the empty string. -/
theorem c3_canonical_fields_present_default_empty (e : XElem) (r : RecDict)
    (f : String) (hr : extractArticleContent e = some r)
    (hf : f ∈ canonicalFields) :
    (∃ v, dictLookup r f = some v) ∧
    (pairsLookup (wpElements e) f = none →
      (f = "title" → findTextByTagVariants e ["title"] = "") →
      (f = "link" → findTextByTagVariants e ["link"] = "") →
      (f = "guid" → findTextByTagVariants e ["guid"] = "") →
      (f = "creator" → creatorText e = "") →
      (f = "content" → encodedText e = "") →
      dictLookup r f = some (Val.s "")) := by
  rw [extractArticleContent] at hr
  have hinit : ∀ g ∈ canonicalFields, initialContent.any (fun p => p.1 = g) = true := by
    decide
  have hnom : ∀ g ∈ canonicalFields, g ≠ "other_metadata" := by decide
  have hdefault : ∀ g ∈ canonicalFields, ¬g = "content" → ¬g = "creator" →
      ¬g = "guid" → ¬g = "link" → ¬g = "title" →
      dictLookup initialContent g = some (Val.s "") := by decide
  constructor
  · have h1 : initialContent.any (fun p => p.1 = f) = true := hinit f hf
    have h2 : (dictLookup r f).isSome = true := by
      refine foldlM_wp_preserves_isSome (wpElements e) (baseRecord e) r hr f ?_
      rw [show dictLookup (baseRecord e) f = alistGet (baseRecord e) f from rfl,
        alistGet_isSome_eq_any, baseRecord_any]
      exact h1
    exact Option.isSome_iff_exists.mp h2
  · intro habs ht hl hg hc hct
    have hnkv : ∀ kv ∈ wpElements e, kv.1 ≠ f := (alistGet_eq_none_iff _ f).mp habs
    have hfo : f ≠ "other_metadata" := hnom f hf
    rw [foldlM_wp_lookup_untouched (wpElements e) (baseRecord e) r hr f hnkv hfo,
      baseRecord_lookup]
    by_cases h1 : f = "content"
    · rw [if_pos h1, hct h1]
    rw [if_neg h1]
    by_cases h2 : f = "creator"
    · rw [if_pos h2, hc h2]
    rw [if_neg h2]
    by_cases h3 : f = "guid"
    · rw [if_pos h3, hg h3]
    rw [if_neg h3]
    by_cases h4 : f = "link"
    · rw [if_pos h4, hl h4]
    rw [if_neg h4]
    by_cases h5 : f = "title"
    · rw [if_pos h5, ht h5]
    rw [if_neg h5]
    exact hdefault f hf h1 h2 h3 h4 h5

/-- Witness for C3 at the childless article node and the field `title`. -/
theorem c3_canonical_fields_present_default_empty_witness :
    (∃ v, dictLookup initialContent "title" = some v) ∧
    dictLookup initialContent "title" = some (Val.s "") := by
  have h := c3_canonical_fields_present_default_empty artEmpty initialContent
    "title" rfl (by decide)
  refine ⟨h.1, h.2 (by decide) (fun _ => rfl) ?_ ?_ ?_ ?_⟩ <;>
    exact fun hh => absurd hh (by decide)

/-- C4 (amended): the extension-namespace merge.  First part: the
`wp_elements` dict maps each bare name to the stripped text of the *last*
immediate child whose tag passes the WordPress test (`'wordpress.org'` or the
literal `\x7b\x7d` marker in the tag) and strips to that bare name —
last-write-wins, verbatim.  Second part: for a successful extraction, a bare
name that is a canonical field receives that value in the canonical field,
and a bare name that is not one of the record's keys lands in
`other_metadata` (provided no extension child is itself named
`other_metadata`, which would overwrite the nested dict). -/
theorem c4_extension_namespace_merge :
    (∀ (e : XElem) (k : String),
      pairsLookup (wpElements e) k =
        Option.map (fun c => elemTextOrEmpty c)
          (List.getLast? (e.children.filter
            (fun c => isWpTag c.tag && cleanupTagName c.tag = k)))) ∧
    (∀ (e : XElem) (r : RecDict) (k v : String),
      extractArticleContent e = some r →
      pairsLookup (wpElements e) k = some v →
      (k ∈ canonicalFields → dictLookup r k = some (Val.s v)) ∧
      (initialContent.any (fun p => p.1 = k) = false →
       (∀ kv ∈ wpElements e, kv.1 ≠ "other_metadata") →
       omLookup r k = some v)) := by
  constructor
  · intro e k
    rw [wpElements, foldl_upsert_lookup]
    cases hgl : List.getLast? (e.children.filter
        (fun c => isWpTag c.tag && cleanupTagName c.tag = k)) with
    | none => rfl
    | some c => rfl
  · intro e r k v hr hfind
    rw [extractArticleContent] at hr
    constructor
    · intro hk
      refine foldlM_wp_lookup_set (wpElements e) (baseRecord e) r hr k v hfind
        (wpElements_keys_nodup e) ?_ ?_
      · rw [baseRecord_any]
        exact (show ∀ g ∈ canonicalFields,
          initialContent.any (fun p => p.1 = g) = true by decide) k hk
      · exact (show ∀ g ∈ canonicalFields, g ≠ "other_metadata" by decide) k hk
    · intro hnk hom
      refine foldlM_wp_om_entry (wpElements e) (baseRecord e) r hr k v hfind
        (wpElements_keys_nodup e) hom ?_ ?_
      · rw [baseRecord_any]
        exact hnk
      · refine ⟨[], ?_⟩
        rw [baseRecord_lookup]
        rfl

/-- Witness for C4 at the article with two WordPress `foo` children (values
`v1` then `v2`) and a WordPress `post_id` child with value `9`. -/
theorem c4_extension_namespace_merge_witness :
    ∃ r, extractArticleContent artWpDup = some r ∧
      dictLookup r "post_id" = some (Val.s "9") ∧ omLookup r "foo" = some "v2" := by
  have hwp : wpElements artWpDup = [("foo", "v2"), ("post_id", "9")] := by rfl
  have hs : (extractArticleContent artWpDup).isSome = true := by rfl
  obtain ⟨r0, hr0⟩ := Option.isSome_iff_exists.mp hs
  refine ⟨r0, hr0, ?_, ?_⟩
  · exact (c4_extension_namespace_merge.2 artWpDup r0 "post_id" "9" hr0
      (by rw [hwp]; rfl)).1 (by decide)
  · exact (c4_extension_namespace_merge.2 artWpDup r0 "foo" "v2" hr0
      (by rw [hwp]; rfl)).2 (by decide) (by rw [hwp]; decide)

theorem zip_mapM_lines (ks : List String) (f : String → Option String) :
    ∀ vals, ks.mapM f = some vals →
    (ks.zip vals).map (fun kv => kv.1 ++ ": " ++ safeValue kv.2) =
      ks.map (fun k => k ++ ": " ++ safeValue ((f k).getD "")) := by
  induction ks with
  | nil =>
    intro vals h
    simp only [List.mapM_nil, pure] at h
    rw [← Option.some_inj.mp h]
    rfl
  | cons k ks ih =>
    intro vals h
    rw [List.mapM_cons] at h
    cases hf : f k with
    | none => rw [hf] at h; simp at h
    | some v =>
      rw [hf] at h
      simp only [Option.bind_eq_bind, Option.some_bind] at h
      cases hm : ks.mapM f with
      | none => rw [hm] at h; simp at h
      | some vs =>
        rw [hm] at h
        simp only [Option.some_bind, pure] at h
        rw [← Option.some_inj.mp h]
        simp only [List.zip_cons_cons, List.map_cons]
        rw [hf]
        exact congrArg (List.cons _) (ih vs hm)

/-- C5 (amended): for every record the writer serializes, the lines are: the
opening `---`; one `key: value` line for each of the 19 canonical fields of
`emitKeys` — all canonical fields except `creator` (never emitted) and
`content` (the body) — in the fixed source order; then every
`other_metadata` entry in its insertion order; then `---`, a blank line and
the body.  Values serialize through `safe_value`: the empty string renders as
a pair of double quotes, and a value containing a colon, quote or newline is
wrapped in double quotes. -/
theorem c5_header_layout (r : RecDict) (ls : List String)
    (h : mdLines r = some ls) :
    (∃ om body, omItems r = some om ∧ dictLookupStr r "content" = some body ∧
      ls = ["---"] ++
        emitKeys.map (fun k => k ++ ": " ++ safeValue ((dictLookupStr r k).getD "")) ++
        om.map (fun kv => kv.1 ++ ": " ++ safeValue kv.2) ++
        ["---", ""] ++ [if body = "" then "(No content)" else body]) ∧
    safeValue "" = "\"\"" ∧
    (∀ v : String, v ≠ "" →
      (containsSub v ":" || containsSub v "\n" || containsSub v "\"") = true →
      safeValue v = "\"" ++ v ++ "\"") := by
  refine ⟨?_, rfl, ?_⟩
  · rw [mdLines] at h
    cases hv : List.mapM (fun k => dictLookupStr r k) emitKeys with
    | none => rw [hv] at h; simp at h
    | some vals =>
      rw [hv] at h
      simp only [Option.bind_eq_bind, Option.some_bind] at h
      cases hom : omItems r with
      | none => rw [hom] at h; simp at h
      | some om =>
        rw [hom] at h
        simp only [Option.some_bind] at h
        cases hb : dictLookupStr r "content" with
        | none => rw [hb] at h; simp at h
        | some body =>
          rw [hb] at h
          simp only [Option.some_bind, pure] at h
          refine ⟨om, body, rfl, rfl, ?_⟩
          rw [← Option.some_inj.mp h, zip_mapM_lines emitKeys _ vals hv]
  · intro v hne hcond
    simp [safeValue, hne, hcond]

/-- Witness for C5 at the record whose `creator` is `alice`. -/
theorem c5_header_layout_witness :
    ∃ ls, mdLines recWithCreator = some ls ∧
      (∃ om body, omItems recWithCreator = some om ∧
        dictLookupStr recWithCreator "content" = some body ∧
        ls = ["---"] ++
          emitKeys.map (fun k =>
            k ++ ": " ++ safeValue ((dictLookupStr recWithCreator k).getD "")) ++
          om.map (fun kv => kv.1 ++ ": " ++ safeValue kv.2) ++
          ["---", ""] ++ [if body = "" then "(No content)" else body]) := by
  have hs : (mdLines recWithCreator).isSome = true := by rfl
  obtain ⟨ls, hls⟩ := Option.isSome_iff_exists.mp hs
  exact ⟨ls, hls, (c5_header_layout recWithCreator ls hls).1⟩

/-- C10 (amended): a heading whose Beautiful Soup `.string` is `None` — the
heading does not consist of a chain of single children ending in exactly one
text node, e.g. a heading mixing text and an inline element, or with two or
more children — renders as the `#` markers followed by the literal `None`.
(A heading whose single child chain ends in one text node takes that text, as
the counterexample shows.) -/
theorem c10_heading_without_string_renders_none (nm madeMarks : String)
    (hnm : (nm, madeMarks) ∈ [("h1", "#"), ("h2", "##"), ("h3", "###"),
      ("h4", "####"), ("h5", "#####"), ("h6", "######")])
    (attrs : List (String × String)) (cs : List BNode)
    (hbs : bstring (BNode.elt nm attrs cs) = none) :
    htmlToMarkdown 5 (BNode.elt "[document]" [] [BNode.elt nm attrs cs]) =
      madeMarks ++ " None" := by
  simp only [List.mem_cons, List.mem_singleton, Prod.mk.injEq,
    List.not_mem_nil, or_false] at hnm
  rcases hnm with ⟨rfl, rfl⟩ | ⟨rfl, rfl⟩ | ⟨rfl, rfl⟩ | ⟨rfl, rfl⟩ | ⟨rfl, rfl⟩ | ⟨rfl, rfl⟩
  · rw [htmlToMarkdown,
      show processElement 5 (BNode.elt "[document]" [] [BNode.elt "h1" attrs cs]) =
        BNode.elt "[document]" [] [(peFns 3).2.1 ((peFns 3).1 (BNode.elt "h1" attrs cs))] from rfl,
      show (peFns 3).1 (BNode.elt "h1" attrs cs) =
        (peFns 2).2.1 (caseBody (peFns 2).1 (BNode.elt "h1" attrs cs)) from rfl,
      show caseBody (peFns 2).1 (BNode.elt "h1" attrs cs) =
        BNode.elt "h1" attrs [BNode.nstr ("# " ++ strOrNone (bstring (BNode.elt "h1" attrs cs)) ++ "\n\n")] from rfl,
      hbs]
    rfl
  · rw [htmlToMarkdown,
      show processElement 5 (BNode.elt "[document]" [] [BNode.elt "h2" attrs cs]) =
        BNode.elt "[document]" [] [(peFns 3).2.1 ((peFns 3).1 (BNode.elt "h2" attrs cs))] from rfl,
      show (peFns 3).1 (BNode.elt "h2" attrs cs) =
        (peFns 2).2.1 (caseBody (peFns 2).1 (BNode.elt "h2" attrs cs)) from rfl,
      show caseBody (peFns 2).1 (BNode.elt "h2" attrs cs) =
        BNode.elt "h2" attrs [BNode.nstr ("## " ++ strOrNone (bstring (BNode.elt "h2" attrs cs)) ++ "\n\n")] from rfl,
      hbs]
    rfl
  · rw [htmlToMarkdown,
      show processElement 5 (BNode.elt "[document]" [] [BNode.elt "h3" attrs cs]) =
        BNode.elt "[document]" [] [(peFns 3).2.1 ((peFns 3).1 (BNode.elt "h3" attrs cs))] from rfl,
      show (peFns 3).1 (BNode.elt "h3" attrs cs) =
        (peFns 2).2.1 (caseBody (peFns 2).1 (BNode.elt "h3" attrs cs)) from rfl,
      show caseBody (peFns 2).1 (BNode.elt "h3" attrs cs) =
        BNode.elt "h3" attrs [BNode.nstr ("### " ++ strOrNone (bstring (BNode.elt "h3" attrs cs)) ++ "\n\n")] from rfl,
      hbs]
    rfl
  · rw [htmlToMarkdown,
      show processElement 5 (BNode.elt "[document]" [] [BNode.elt "h4" attrs cs]) =
        BNode.elt "[document]" [] [(peFns 3).2.1 ((peFns 3).1 (BNode.elt "h4" attrs cs))] from rfl,
      show (peFns 3).1 (BNode.elt "h4" attrs cs) =
        (peFns 2).2.1 (caseBody (peFns 2).1 (BNode.elt "h4" attrs cs)) from rfl,
      show caseBody (peFns 2).1 (BNode.elt "h4" attrs cs) =
        BNode.elt "h4" attrs [BNode.nstr ("#### " ++ strOrNone (bstring (BNode.elt "h4" attrs cs)) ++ "\n\n")] from rfl,
      hbs]
    rfl
  · rw [htmlToMarkdown,
      show processElement 5 (BNode.elt "[document]" [] [BNode.elt "h5" attrs cs]) =
        BNode.elt "[document]" [] [(peFns 3).2.1 ((peFns 3).1 (BNode.elt "h5" attrs cs))] from rfl,
      show (peFns 3).1 (BNode.elt "h5" attrs cs) =
        (peFns 2).2.1 (caseBody (peFns 2).1 (BNode.elt "h5" attrs cs)) from rfl,
      show caseBody (peFns 2).1 (BNode.elt "h5" attrs cs) =
        BNode.elt "h5" attrs [BNode.nstr ("##### " ++ strOrNone (bstring (BNode.elt "h5" attrs cs)) ++ "\n\n")] from rfl,
      hbs]
    rfl
  · rw [htmlToMarkdown,
      show processElement 5 (BNode.elt "[document]" [] [BNode.elt "h6" attrs cs]) =
        BNode.elt "[document]" [] [(peFns 3).2.1 ((peFns 3).1 (BNode.elt "h6" attrs cs))] from rfl,
      show (peFns 3).1 (BNode.elt "h6" attrs cs) =
        (peFns 2).2.1 (caseBody (peFns 2).1 (BNode.elt "h6" attrs cs)) from rfl,
      show caseBody (peFns 2).1 (BNode.elt "h6" attrs cs) =
        BNode.elt "h6" attrs [BNode.nstr ("###### " ++ strOrNone (bstring (BNode.elt "h6" attrs cs)) ++ "\n\n")] from rfl,
      hbs]
    rfl

/-- Witness for C10 at an `h2` heading holding a text node and an `em`
element (two children, so `.string` is `None`). -/
theorem c10_heading_without_string_renders_none_witness :
    htmlToMarkdown 5 (BNode.elt "[document]" []
      [BNode.elt "h2" [] [BNode.nstr "Hello ", BNode.elt "em" [] [BNode.nstr "x"]]]) =
      "##" ++ " None" :=
  c10_heading_without_string_renders_none "h2" "##" (by decide)
    [] [BNode.nstr "Hello ", BNode.elt "em" [] [BNode.nstr "x"]] rfl

/-! ## Whitespace-discipline lemmas for the converter post-processing -/

theorem infix_append_cases {α : Type} (w x y : List α) (h : w <:+: x ++ y) :
    w <:+: x ∨ w <:+: y ∨ ∃ w1 w2, w = w1 ++ w2 ∧ w1 <:+ x ∧ w2 <+: y := by
  obtain ⟨s, t, hst⟩ := h
  rw [List.append_assoc] at hst
  rcases List.append_eq_append_iff.mp hst with ⟨a, hx, hwt⟩ | ⟨c, hs, hy⟩
  · rcases List.append_eq_append_iff.mp hwt with ⟨b, ha, ht⟩ | ⟨w2, hw, hy2⟩
    · left
      exact ⟨s, b, by rw [hx, ha, List.append_assoc]⟩
    · right; right
      exact ⟨a, w2, hw, ⟨s, hx.symm⟩, ⟨t, hy2.symm⟩⟩
  · right; left
    exact ⟨c, t, by rw [hy, List.append_assoc]⟩

theorem headWsNl_cons_neg (c : Char) (l : List Char) (hc : pySpace c = false) :
    headWsNl (c :: l) = 0 := by
  simp only [headWsNl, List.takeWhile_cons, hc]
  rfl

theorem headWsNl_cons_pos (c : Char) (l : List Char) (hc : pySpace c = true) :
    headWsNl (c :: l) = (if c = '\n' then 1 else 0) + headWsNl l := by
  simp only [headWsNl, List.takeWhile_cons, hc, if_true, List.count_cons]
  by_cases h : c = '\n'
  · simp [h]
    omega
  · simp [h]

theorem count_le_headWsNl (w2 : List Char) :
    ∀ y, w2 <+: y → (∀ c ∈ w2, pySpace c = true) →
    w2.count '\n' ≤ headWsNl y := by
  induction w2 with
  | nil => intro y _ _; simp
  | cons c w2' ih =>
    intro y hpre hws
    cases y with
    | nil => exact absurd (List.prefix_nil.mp hpre) (by simp)
    | cons d y' =>
      obtain ⟨rfl, hpre'⟩ := List.cons_prefix_cons.mp hpre
      have hc : pySpace c = true := hws c (List.mem_cons_self _ _)
      have hrest := ih y' hpre' (fun a ha => hws a (List.mem_cons_of_mem c ha))
      rw [headWsNl_cons_pos c y' hc]
      have hcc : List.count '\n' (c :: w2') =
          List.count '\n' w2' + (if c = '\n' then 1 else 0) := by
        by_cases h : c = '\n' <;> simp [List.count_cons, h]
      rw [hcc]
      omega

theorem count_le_tailWsNl (w1 x : List Char) (hsuf : w1 <:+ x)
    (hws : ∀ c ∈ w1, pySpace c = true) : w1.count '\n' ≤ tailWsNl x := by
  have hpre : w1.reverse <+: x.reverse := List.reverse_prefix.mpr hsuf
  have h := count_le_headWsNl w1.reverse x.reverse hpre
    (fun c hc => hws c (List.mem_reverse.mp hc))
  rw [List.count_reverse] at h
  exact h

theorem all_ws_no_triple (x : List Char)
    (hcnt : x.count '\n' ≤ 2) : ¬ HasWsTriple x := by
  rintro ⟨w, hinf, _, h3⟩
  have := (List.IsInfix.sublist hinf).count_le '\n'
  omega

theorem tailWsNl_all_ws (x : List Char) (hws : ∀ c ∈ x, pySpace c = true) :
    tailWsNl x = x.count '\n' := by
  rw [tailWsNl, List.takeWhile_eq_self_iff.mpr
    (fun c hc => hws c (List.mem_reverse.mp hc)), List.count_reverse]

theorem headWsNl_append_all_ws (x y : List Char)
    (hws : ∀ c ∈ x, pySpace c = true) :
    headWsNl (x ++ y) = x.count '\n' + headWsNl y := by
  rw [headWsNl, List.takeWhile_append_of_pos hws, List.count_append, headWsNl]

theorem not_hasWsTriple_append (x y : List Char)
    (hx : ¬ HasWsTriple x) (hy : ¬ HasWsTriple y)
    (hbound : tailWsNl x + headWsNl y ≤ 2) : ¬ HasWsTriple (x ++ y) := by
  rintro ⟨w, hinf, hws, hcnt⟩
  rcases infix_append_cases w x y hinf with h | h | ⟨w1, w2, rfl, h1, h2⟩
  · exact hx ⟨w, h, hws, hcnt⟩
  · exact hy ⟨w, h, hws, hcnt⟩
  · have c1 := count_le_tailWsNl w1 x h1
      (fun c hc => hws c (List.mem_append_left _ hc))
    have c2 := count_le_headWsNl w2 y h2
      (fun c hc => hws c (List.mem_append_right _ hc))
    rw [List.count_append] at hcnt
    omega

theorem emitRun_all_ws (acc : List Char) (hacc : ∀ c ∈ acc, pySpace c = true) :
    ∀ c ∈ emitRun acc, pySpace c = true := by
  intro c hc
  rw [emitRun] at hc
  by_cases h3 : 3 ≤ acc.count '\n'
  · rw [if_pos h3] at hc
    rcases List.mem_cons.mp hc with rfl | hc
    · rfl
    rcases List.mem_cons.mp hc with rfl | hc
    · rfl
    exact hacc c (List.takeWhile_subset _ (List.mem_reverse.mp hc))
  · rw [if_neg h3] at hc
    exact hacc c (List.mem_reverse.mp hc)

theorem emitRun_count (acc : List Char) : (emitRun acc).count '\n' ≤ 2 := by
  rw [emitRun]
  by_cases h3 : 3 ≤ acc.count '\n'
  · rw [if_pos h3]
    have hz : ((acc.takeWhile (fun c => c ≠ '\n')).reverse).count '\n' = 0 := by
      rw [List.count_reverse, List.count_eq_zero]
      intro hmem
      have hp := List.mem_takeWhile_imp hmem
      simp at hp
    rw [List.count_cons, List.count_cons, hz]
    simp
  · rw [if_neg h3]
    rw [List.count_reverse]
    omega

theorem cons_nonNl_good (c : Char) (rest : List Char) (hc : c ≠ '\n')
    (h1 : ¬ HasWsTriple rest) (h2 : headWsNl rest ≤ 2) :
    ¬ HasWsTriple (c :: rest) ∧ headWsNl (c :: rest) ≤ 2 := by
  have ht1 : tailWsNl [c] = 0 := by
    rw [tailWsNl]
    by_cases hp : pySpace c = true
    · simp [hp, List.count_cons, hc]
    · have hf : pySpace c = false := by simpa using hp
      simp [hf]
  constructor
  · have hx := not_hasWsTriple_append [c] rest
      (all_ws_no_triple [c] (by simp [List.count_cons, hc]))
      h1 (by rw [ht1]; omega)
    exact hx
  · by_cases hp : pySpace c = true
    · rw [headWsNl_cons_pos c rest hp, if_neg hc]
      omega
    · rw [headWsNl_cons_neg c rest (by simpa using hp)]
      omega

theorem collapseNl_good (l : List Char) : ∀ (st : Option (List Char)),
    (∀ acc, st = some acc → ∀ c ∈ acc, pySpace c = true) →
    ¬ HasWsTriple (collapseNl st l) ∧ headWsNl (collapseNl st l) ≤ 2 := by
  induction l with
  | nil =>
    intro st hst
    cases st with
    | none =>
      constructor
      · rintro ⟨w, hinf, _, hcnt⟩
        have hw : w = [] := List.sublist_nil.mp (List.IsInfix.sublist hinf)
        rw [hw] at hcnt
        simp at hcnt
      · show headWsNl [] ≤ 2
        simp [headWsNl]
    | some acc =>
      have hacc := hst acc rfl
      have hall := emitRun_all_ws acc hacc
      constructor
      · exact all_ws_no_triple _ (emitRun_count acc)
      · show headWsNl (emitRun acc) ≤ 2
        rw [headWsNl, List.takeWhile_eq_self_iff.mpr hall]
        exact emitRun_count acc
  | cons c cs ih =>
    intro st hst
    cases st with
    | none =>
      rw [show collapseNl none (c :: cs) =
        if c = '\n' then collapseNl (some [c]) cs
        else c :: collapseNl none cs from rfl]
      by_cases hc : c = '\n'
      · rw [if_pos hc]
        refine ih (some [c]) ?_
        intro a ha d hd
        rcases Option.some_inj.mp ha with rfl
        rcases List.mem_singleton.mp hd with rfl
        rw [hc]
        rfl
      · rw [if_neg hc]
        have ihn := ih none (by intro a ha; cases ha)
        exact cons_nonNl_good c _ hc ihn.1 ihn.2
    | some acc =>
      have hacc := hst acc rfl
      rw [show collapseNl (some acc) (c :: cs) =
        if pySpace c then collapseNl (some (c :: acc)) cs
        else emitRun acc ++ (c :: collapseNl none cs) from rfl]
      by_cases hp : pySpace c = true
      · rw [if_pos hp]
        refine ih (some (c :: acc)) ?_
        intro a ha d hd
        rcases Option.some_inj.mp ha with rfl
        rcases List.mem_cons.mp hd with rfl | hd
        · exact hp
        · exact hacc d hd
      · rw [if_neg hp]
        have hcfalse : pySpace c = false := by simpa using hp
        have hc : c ≠ '\n' := by
          intro h
          rw [h] at hcfalse
          cases hcfalse
        have ihn := ih none (by intro a ha; cases ha)
        have hgood := cons_nonNl_good c _ hc ihn.1 ihn.2
        have hxall := emitRun_all_ws acc hacc
        have hxcnt := emitRun_count acc
        constructor
        · refine not_hasWsTriple_append (emitRun acc) _
            (all_ws_no_triple _ hxcnt) hgood.1 ?_
          rw [tailWsNl_all_ws _ hxall, headWsNl_cons_neg c _ hcfalse]
          omega
        · rw [headWsNl_append_all_ws _ _ hxall, headWsNl_cons_neg c _ hcfalse]
          omega

theorem wsIns_stripLineTrailSpaces (l : List Char) :
    WsIns (stripLineTrailSpaces l) l := by
  induction l with
  | nil => exact WsIns.nil
  | cons c cs ih =>
    rw [stripLineTrailSpaces]
    by_cases hg : (c = ' ' && atLineEnd (cs.dropWhile (fun x => x = ' '))) = true
    · rw [if_pos hg]
      have hc : c = ' ' := by
        have := (Bool.and_eq_true _ _).mp hg
        simpa using this.1
      exact WsIns.ins (by rw [hc]; rfl) ih
    · rw [if_neg hg]
      exact WsIns.keep c ih

theorem wsIns_prefix_lift {t l : List Char} (h : WsIns t l) :
    ∀ w, w <+: t → ∃ v, v <+: l ∧ WsIns w v := by
  induction h with
  | nil =>
    intro w hw
    rw [List.prefix_nil.mp hw]
    exact ⟨[], List.nil_prefix, WsIns.nil⟩
  | keep c h ih =>
    intro w hw
    cases w with
    | nil => exact ⟨[], List.nil_prefix, WsIns.nil⟩
    | cons a w' =>
      obtain ⟨rfl, hw'⟩ := List.cons_prefix_cons.mp hw
      obtain ⟨v, hv, hwv⟩ := ih w' hw'
      exact ⟨a :: v, List.cons_prefix_cons.mpr ⟨rfl, hv⟩, WsIns.keep a hwv⟩
  | ins hc h ih =>
    intro w hw
    obtain ⟨v, hv, hwv⟩ := ih w hw
    refine ⟨_ :: v, List.cons_prefix_cons.mpr ⟨rfl, hv⟩, WsIns.ins hc hwv⟩

theorem wsIns_infix_lift {t l : List Char} (h : WsIns t l) :
    ∀ w, w <:+: t → ∃ v, v <:+: l ∧ WsIns w v := by
  induction h with
  | nil =>
    intro w hw
    have hwn : w = [] := List.sublist_nil.mp (List.IsInfix.sublist hw)
    rw [hwn]
    exact ⟨[], List.infix_refl [], WsIns.nil⟩
  | keep c h ih =>
    intro w hw
    rcases List.infix_cons_iff.mp hw with hpre | hinf
    · cases w with
      | nil => exact ⟨[], List.nil_infix, WsIns.nil⟩
      | cons a w' =>
        obtain ⟨rfl, hw'⟩ := List.cons_prefix_cons.mp hpre
        obtain ⟨v, hv, hwv⟩ := wsIns_prefix_lift h w' hw'
        exact ⟨a :: v, (List.cons_prefix_cons.mpr ⟨rfl, hv⟩).isInfix,
          WsIns.keep a hwv⟩
    · obtain ⟨v, hv, hwv⟩ := ih w hinf
      exact ⟨v, hv.trans (List.infix_cons (List.infix_refl _)), hwv⟩
  | ins hc h ih =>
    intro w hw
    obtain ⟨v, hv, hwv⟩ := ih w hw
    exact ⟨v, hv.trans (List.infix_cons (List.infix_refl _)), hwv⟩

theorem wsIns_all_ws {t l : List Char} (h : WsIns t l)
    (ht : ∀ c ∈ t, pySpace c = true) : ∀ c ∈ l, pySpace c = true := by
  induction h with
  | nil => exact ht
  | keep c h ih =>
    intro d hd
    rcases List.mem_cons.mp hd with rfl | hd
    · exact ht d (List.mem_cons_self _ _)
    · exact ih (fun a ha => ht a (List.mem_cons_of_mem _ ha)) d hd
  | ins hc h ih =>
    intro d hd
    rcases List.mem_cons.mp hd with rfl | hd
    · exact hc
    · exact ih ht d hd

theorem wsIns_count_le {t l : List Char} (h : WsIns t l) :
    t.count '\n' ≤ l.count '\n' := by
  induction h with
  | nil => exact le_refl _
  | keep c h ih => simp only [List.count_cons]; omega
  | ins hc h ih => simp only [List.count_cons]; omega

theorem hasWsTriple_of_wsIns {t l : List Char} (h : WsIns t l)
    (ht : HasWsTriple t) : HasWsTriple l := by
  obtain ⟨w, hinf, hws, hcnt⟩ := ht
  obtain ⟨v, hvinf, hwv⟩ := wsIns_infix_lift h w hinf
  exact ⟨v, hvinf, wsIns_all_ws hwv hws, hcnt.trans (wsIns_count_le hwv)⟩

theorem pyStripL_decomp (l : List Char) : pyStripL l <:+: l := by
  rw [pyStripL]
  have h1 : (l.dropWhile pySpace) <:+ l := List.dropWhile_suffix pySpace
  have h2 : ((l.dropWhile pySpace).reverse.dropWhile pySpace).reverse <+:
      (l.dropWhile pySpace) := by
    have h2x := List.reverse_prefix.mpr
      (List.dropWhile_suffix (l := (l.dropWhile pySpace).reverse) pySpace)
    rw [List.reverse_reverse] at h2x
    exact h2x
  exact List.IsPrefix.isInfix h2 |>.trans (List.IsSuffix.isInfix h1)

theorem dropWhile_head_false {α : Type} {p : α → Bool} :
    ∀ (l : List α) (d : α) (tl : List α), l.dropWhile p = d :: tl →
    p d = false := by
  intro l
  induction l with
  | nil => intro d tl h; cases h
  | cons c cs ih =>
    intro d tl h
    by_cases hp : p c = true
    · rw [List.dropWhile_cons_of_pos hp] at h
      exact ih d tl h
    · rw [List.dropWhile_cons_of_neg hp] at h
      injection h with h1 _
      rw [← h1]
      simpa using hp

theorem sTS_head_ne_newline :
    ∀ (cs : List Char), atLineEnd (cs.dropWhile (fun x => x = ' ')) = false →
    ∃ d tl, stripLineTrailSpaces cs = d :: tl ∧ d ≠ '\n' := by
  intro cs
  induction cs with
  | nil => intro h; simp [atLineEnd] at h
  | cons c cs' ih =>
    intro h
    by_cases hc : c = ' '
    · have hd : (c :: cs').dropWhile (fun x => x = ' ') =
          cs'.dropWhile (fun x => x = ' ') := by
        rw [List.dropWhile_cons_of_pos]
        simp [hc]
      rw [hd] at h
      rw [stripLineTrailSpaces, if_neg (by rw [h]; simp)]
      exact ⟨c, _, rfl, by rw [hc]; decide⟩
    · have hd : (c :: cs').dropWhile (fun x => x = ' ') = c :: cs' := by
        rw [List.dropWhile_cons_of_neg]
        simp [hc]
      rw [hd] at h
      have hcn : ¬ (c = '\n') := by simpa [atLineEnd] using h
      rw [stripLineTrailSpaces, if_neg (by simp [hc])]
      exact ⟨c, _, rfl, hcn⟩

theorem sTS_no_trailing (l : List Char) :
    (¬ ∃ l1 l2, stripLineTrailSpaces l = l1 ++ ' ' :: '\n' :: l2) ∧
    (¬ ∃ l1, stripLineTrailSpaces l = l1 ++ [' ']) := by
  induction l with
  | nil =>
    constructor
    · rintro ⟨l1, l2, h⟩
      rw [stripLineTrailSpaces] at h
      cases l1 <;> simp at h
    · rintro ⟨l1, h⟩
      rw [stripLineTrailSpaces] at h
      cases l1 <;> simp at h
  | cons c cs ih =>
    rw [stripLineTrailSpaces]
    by_cases hg : (c = ' ' && atLineEnd (cs.dropWhile (fun x => x = ' '))) = true
    · rw [if_pos hg]
      exact ih
    · rw [if_neg hg]
      have hgor : ¬(c = ' ') ∨
          atLineEnd (cs.dropWhile (fun x => x = ' ')) = false := by
        by_cases hc : c = ' '
        · right
          by_cases ha : atLineEnd (cs.dropWhile (fun x => x = ' ')) = true
          · exact absurd (by rw [ha]; simp [hc]) hg
          · simpa using ha
        · left
          exact hc
      constructor
      · rintro ⟨l1, l2, h⟩
        cases l1 with
        | nil =>
          injection h with h1 h2
          rcases hgor with hne | hfalse
          · exact hne h1
          · obtain ⟨d, tl, hdt, hdn⟩ := sTS_head_ne_newline cs hfalse
            rw [hdt] at h2
            injection h2 with h3 _
            exact hdn h3
        | cons a l1' =>
          injection h with _ h2
          exact ih.1 ⟨l1', l2, h2⟩
      · rintro ⟨l1, h⟩
        cases l1 with
        | nil =>
          injection h with h1 h2
          rcases hgor with hne | hfalse
          · exact hne h1
          · obtain ⟨d, tl, hdt, _⟩ := sTS_head_ne_newline cs hfalse
            rw [hdt] at h2
            cases h2
        | cons a l1' =>
          injection h with _ h2
          exact ih.2 ⟨l1', h2⟩

theorem pyStripL_no_trailing (m : List Char)
    (h1 : ¬ ∃ l1 l2, m = l1 ++ ' ' :: '\n' :: l2) :
    (¬ ∃ l1 l2, pyStripL m = l1 ++ ' ' :: '\n' :: l2) ∧
    (¬ ∃ l1, pyStripL m = l1 ++ [' ']) := by
  constructor
  · rintro ⟨l1, l2, hsplit⟩
    obtain ⟨s, t, hst⟩ := pyStripL_decomp m
    refine h1 ⟨s ++ l1, l2 ++ t, ?_⟩
    rw [← hst, hsplit]
    simp [List.append_assoc]
  · rintro ⟨l1, hsplit⟩
    have hx : (m.dropWhile pySpace).reverse.dropWhile pySpace =
        ' ' :: l1.reverse := by
      have hrev := congrArg List.reverse hsplit
      rw [pyStripL, List.reverse_reverse, List.reverse_append] at hrev
      simpa using hrev
    have hhead := dropWhile_head_false _ _ _ hx
    exact absurd hhead (by decide)

/-- C2 (amended): for every input fragment — modelled as every parsed soup,
at every recursion fuel — the converter terminates (it is a total function)
and its output contains no run of three or more consecutive newline
characters and no line ending in a *space* character: no space immediately
precedes a newline, and the output does not end in a space.  (The original
claim's stronger `no line ending in whitespace` fails: line 217 removes only
spaces, so a line may still end in a tab or carriage return, as the
counterexample shows.) -/
theorem c2_converter_whitespace_discipline (f : Nat) (doc : BNode) :
    (¬ (['\n', '\n', '\n'] <:+: (htmlToMarkdown f doc).data)) ∧
    (¬ ∃ l1 l2, (htmlToMarkdown f doc).data = l1 ++ ' ' :: '\n' :: l2) ∧
    (¬ ∃ l1, (htmlToMarkdown f doc).data = l1 ++ [' ']) := by
  have key : ∀ s : String,
      (¬ (['\n', '\n', '\n'] <:+: (postprocessText s).data)) ∧
      (¬ ∃ l1 l2, (postprocessText s).data = l1 ++ ' ' :: '\n' :: l2) ∧
      (¬ ∃ l1, (postprocessText s).data = l1 ++ [' ']) := by
    intro s
    have hdata : (postprocessText s).data =
        pyStripL (stripLineTrailSpaces (collapseNl none s.data)) := rfl
    have hcol := collapseNl_good s.data none (by intro a ha; cases ha)
    have hsts := sTS_no_trailing (collapseNl none s.data)
    have hstrip := pyStripL_no_trailing _ hsts.1
    refine ⟨?_, ?_, ?_⟩
    · intro h3
      rw [hdata] at h3
      have htr : HasWsTriple
          (pyStripL (stripLineTrailSpaces (collapseNl none s.data))) :=
        ⟨['\n', '\n', '\n'], h3, by decide, by decide⟩
      have htr2 : HasWsTriple (stripLineTrailSpaces (collapseNl none s.data)) := by
        obtain ⟨w, hinf, hws, hcnt⟩ := htr
        exact ⟨w, hinf.trans (pyStripL_decomp _), hws, hcnt⟩
      exact hcol.1 (hasWsTriple_of_wsIns (wsIns_stripLineTrailSpaces _) htr2)
    · rw [hdata]
      exact hstrip.1
    · rw [hdata]
      exact hstrip.2
  exact key (getTextNl (processElement f doc))
